import Mathlib

/-!
# Calc_AUC_cpp: integer trapezoid AUC

A shallow embedding of `src/calc_auc.cpp` and `src/calc_auc.h`.

* The array `pFI[0 .. _count-1]` is a `List (AUCDatum α)`; `_count` is its length.  `_count` is
  an `unsigned int`, so the theorems about the code carry the hypothesis `pFI.length < 2 ^ 32`.
* `unsigned int` is 32 bits wide and `uint_fast64_t` is 64 bits wide; every arithmetic operation
  of the code is followed by the reduction modulo `2 ^ 32` resp. `2 ^ 64` that the C semantics of
  unsigned integers prescribes.
* `float` predictions are taken from a linear order `α` (no NaN); the code only compares them.
* Line 119 is modelled twice: `CalculateAUC` carries the exact rational value of
  `0.5 * accum / ones / (_count - ones)`, `CalculateAUCDouble` evaluates the same expression in
  IEEE binary64 arithmetic, every conversion and operation rounded to nearest, ties to even
  (`roundDouble`).
* The two `assert`s do not change the computed values; they are stated as separate predicates.

## Main results

* `accumOf_eq_trapezoidSum`: for labels in {0,1} and `_count < 2 ^ 32` the accumulator of the
  code is a sum over the negatives that depends only on the multiset of samples.  The only
  fixed-width operation that can wrap is the 32-bit sum `tp + tp0` on line 109
  (`foldl_scanStep_eq`).
* `accumExactOf_eq_pairs`: in unbounded integers the scan computes `2 * C + T`.
* `accumOf_eq_accumExactOf`: the code agrees with the unbounded scan when `2 * P < 2 ^ 32`.
* `overflowData_accumOf`: with `2 ^ 31` positives above one negative the sum wraps and the code
  ends with the accumulator 0 instead of `2 ^ 32`.
* `CalculateAUC_exits`: the two early returns leave the array untouched, the third exit returns
  a non-negative number and the sorted array.
* `scanLoop_take`: the counters `tp`, `tp0`, `tn` of the code after any number of iterations.
* `foldl_stepWith_id_bound`: in unbounded integers every partial accumulator is at most
  `2 * P * N`.
* `groupedTrapezoidSum_runs`: on a sorted array the documented sum over the runs of tied
  predictions is the closed form of the unbounded scan.
* `flipLabels_accumExactOf`: in unbounded integers the accumulators of a dataset and of the
  dataset with flipped labels add up to `2 * P * N`.
* `mapPrediction_trapezoidSum`: a strictly increasing map of the predictions leaves the closed
  form unchanged.
* `normalizeDouble_tied`: when `P * N ≤ 2 ^ 53` line 119 in doubles is exact on `accum = P * N`.
* `largeSeparatedData_double`, `largeTiedData_double`: with `P = 94906219`, `N = 94906313` the
  doubles of line 119 are `1 + 2 ^ (-52)` on separated data and `1/2 + 2 ^ (-53)` on tied data.
-/

set_option linter.unusedSectionVars false

namespace CalcAUC

/-- The struct `AUCDatum` of `calc_auc.h`: an `unsigned int` label and a prediction. -/
structure AUCDatum (α : Type) where
  ground_truth : Nat
  prediction : α
deriving DecidableEq

/-- Number of values of an `unsigned int`. -/
def UINT_MOD : Nat := 2 ^ 32

/-- Number of values of a `uint_fast64_t`. -/
def UINT64_MOD : Nat := 2 ^ 64

section Code

variable {α : Type} [LinearOrder α]

/-- The comparison callback handed to `qsort` (lines 18-24). -/
def cbCompareAUCDatumPrediction (pf0 pf1 : AUCDatum α) : Int :=
  if pf0.prediction = pf1.prediction then 0
  else if pf0.prediction < pf1.prediction then -1 else 1

/-- The library routine `qsort`, modelled by insertion sort driven by the callback: an element
goes before another when the callback does not return a positive number.  The C standard leaves
the order of elements that compare equal open; the scan does not depend on it. -/
def qsort {β : Type} (compar : β → β → Int) (base : List β) : List β :=
  base.insertionSort (fun a b => compar a b ≤ 0)

/-- Line 90: `for (i = 0; i < _count; i++) ones += pFI[i].ground_truth;` in 32-bit arithmetic. -/
def countOnes (pFI : List (AUCDatum α)) : Nat :=
  pFI.foldl (fun ones d => (ones + d.ground_truth) % UINT_MOD) 0

/-- The local variables of the scan (lines 101-105). -/
structure ScanState (α : Type) where
  tn : Nat
  tp : Nat
  tp0 : Nat
  accum : Nat
  threshold : α
deriving DecidableEq

/-- One iteration of the loop body (lines 107-114), in the fixed-width arithmetic of the code:
`tp + tp0` is formed in 32 bits, widened, multiplied by `tn` in 64 bits and added in 64 bits;
`1 - ground_truth` and `tp -= ground_truth` are 32-bit unsigned operations. -/
def scanStep (s : ScanState α) (d : AUCDatum α) : ScanState α :=
  let s1 : ScanState α :=
    if d.prediction ≠ s.threshold then
      { threshold := d.prediction
        accum := (s.accum + (((s.tp + s.tp0) % UINT_MOD) * s.tn) % UINT64_MOD) % UINT64_MOD
        tp0 := s.tp
        tn := 0
        tp := s.tp }
    else s
  { s1 with
    tn := (s1.tn + (1 + UINT_MOD - d.ground_truth % UINT_MOD) % UINT_MOD) % UINT_MOD
    tp := (s1.tp + UINT_MOD - d.ground_truth % UINT_MOD) % UINT_MOD }

/-- The state in which the loop starts (lines 101-105); `threshold` is `pFI[0].prediction`. -/
def scanInit (ones : Nat) (threshold : α) : ScanState α :=
  { tn := 0, tp := ones, tp0 := ones, accum := 0, threshold := threshold }

/-- The loop of lines 106-115 run over the whole array. -/
def scanLoop (ones : Nat) (threshold : α) (pFI : List (AUCDatum α)) : ScanState α :=
  pFI.foldl scanStep (scanInit ones threshold)

/-- Line 117: the flush of the last trapezoid, `accum += (uint_fast64_t)tp0 * tn`. -/
def scanFlush (s : ScanState α) : Nat :=
  (s.accum + (s.tp0 * s.tn) % UINT64_MOD) % UINT64_MOD

/-- Lines 101-117: the value of `accum` after the flush, for an array whose first element
exists (the array is read at index 0 on line 105).  On the empty array the loop body never runs
and the initial threshold is never used. -/
def scan (ones : Nat) : List (AUCDatum α) → Nat
  | [] => 0
  | d :: pFI => scanFlush (scanLoop ones d.prediction (d :: pFI))

/-- The assertion on line 116, `assert(tp == 0)`, as a predicate on the array after the sort. -/
def assertTpZero (ones : Nat) : List (AUCDatum α) → Prop
  | [] => ones = 0
  | d :: pFI => (scanLoop ones d.prediction (d :: pFI)).tp = 0

/-- The value of `accum` on line 119 for the caller's array. -/
def accumOf (pFI : List (AUCDatum α)) : Nat :=
  scan (countOnes pFI) (qsort cbCompareAUCDatumPrediction pFI)

/-- The function `CalculateAUC` (lines 85-120) with the expression of line 119 taken at its
exact value.  The first component is the returned number, the second the caller's array after
the call.  `CalculateAUCDouble` below evaluates line 119 in IEEE doubles instead. -/
def CalculateAUC (pFI : List (AUCDatum α)) : ℚ × List (AUCDatum α) :=
  let _count := pFI.length
  let ones := countOnes pFI
  if 0 = ones then (-1, pFI)
  else if _count = ones then (-2, pFI)
  else
    let sorted := qsort cbCompareAUCDatumPrediction pFI
    let accum := scan ones sorted
    ((1 / 2 : ℚ) * (accum : ℚ) / (ones : ℚ) / (((_count + UINT_MOD - ones) % UINT_MOD : Nat) : ℚ),
      sorted)

/-- The integer nearest to a rational, ties to the even one. -/
def roundHalfEven (q : ℚ) : ℤ :=
  if q - ⌊q⌋ < 1 / 2 then ⌊q⌋
  else if 1 / 2 < q - ⌊q⌋ then ⌊q⌋ + 1
  else if ⌊q⌋ % 2 = 0 then ⌊q⌋ else ⌊q⌋ + 1

/-- IEEE binary64 rounding, to nearest with ties to even, of a rational in the normal range:
a positive `q` with `2 ^ e ≤ q < 2 ^ (e + 1)` goes to the nearest multiple of `2 ^ (e - 52)`.
The values of line 119 are 0 or lie between `2 ^ (-65)` and `2 ^ 64`. -/
def roundDouble (q : ℚ) : ℚ :=
  if q ≤ 0 then 0
  else (roundHalfEven (q / (2 : ℚ) ^ (Int.log 2 q - 52)) : ℚ) * (2 : ℚ) ^ (Int.log 2 q - 52)

/-- Line 119 in IEEE binary64 arithmetic:
`0.5 * (double)accum / (double)ones / (double)(_count - ones)`, every conversion and every
operation rounded. -/
def normalizeDouble (accum ones negs : Nat) : ℚ :=
  roundDouble (roundDouble (roundDouble ((1 / 2 : ℚ) * roundDouble accum) / roundDouble ones)
    / roundDouble negs)

/-- The function `CalculateAUC` (lines 85-120) with line 119 evaluated in IEEE binary64
arithmetic.  The first component is the returned `double`, the second the caller's array after
the call.  The divisors are non-zero on the third exit: `ones ≠ 0` and `_count ≠ ones`. -/
def CalculateAUCDouble (pFI : List (AUCDatum α)) : ℚ × List (AUCDatum α) :=
  let _count := pFI.length
  let ones := countOnes pFI
  if 0 = ones then (-1, pFI)
  else if _count = ones then (-2, pFI)
  else
    let sorted := qsort cbCompareAUCDatumPrediction pFI
    let accum := scan ones sorted
    (normalizeDouble accum ones ((_count + UINT_MOD - ones) % UINT_MOD), sorted)

end Code

/-! ## Vocabulary of the claims -/

section Vocabulary

variable {α : Type} [LinearOrder α]

/-- Every label is 0 or 1. -/
def BinaryLabels (pFI : List (AUCDatum α)) : Prop :=
  ∀ d ∈ pFI, d.ground_truth = 0 ∨ d.ground_truth = 1

instance instDecidableBinaryLabels (pFI : List (AUCDatum α)) : Decidable (BinaryLabels pFI) := by
  unfold BinaryLabels; infer_instance

/-- Sorted ascending by prediction. -/
def SortedByPrediction (pFI : List (AUCDatum α)) : Prop :=
  pFI.Pairwise (fun a b => a.prediction ≤ b.prediction)

instance instDecidableSortedByPrediction (pFI : List (AUCDatum α)) :
    Decidable (SortedByPrediction pFI) := by
  unfold SortedByPrediction; infer_instance

/-- A positive sample: label 1. -/
def isPos (d : AUCDatum α) : Bool := decide (d.ground_truth = 1)

/-- A negative sample: label 0. -/
def isNeg (d : AUCDatum α) : Bool := decide (d.ground_truth = 0)

/-- The number `P` of positives. -/
def numPos (l : List (AUCDatum α)) : Nat := l.countP isPos

/-- The number `N` of negatives. -/
def numNeg (l : List (AUCDatum α)) : Nat := l.countP isNeg

/-- Number of positives whose prediction is strictly greater than `v`. -/
def posAbove (l : List (AUCDatum α)) (v : α) : Nat :=
  l.countP (fun y => isPos y && decide (v < y.prediction))

/-- Number of positives whose prediction is at least `v`. -/
def posAtOrAbove (l : List (AUCDatum α)) (v : α) : Nat :=
  l.countP (fun y => isPos y && decide (v ≤ y.prediction))

/-- Number of positives whose prediction equals `v`. -/
def posAt (l : List (AUCDatum α)) (v : α) : Nat :=
  l.countP (fun y => isPos y && decide (y.prediction = v))

/-- Number of negatives whose prediction equals `v`. -/
def negAt (l : List (AUCDatum α)) (v : α) : Nat :=
  l.countP (fun y => isNeg y && decide (y.prediction = v))

/-- Sum, over the negatives of `l` selected by `p`, of `h` at the prediction. -/
def negSum (p : AUCDatum α → Bool) (h : α → Nat) (l : List (AUCDatum α)) : Nat :=
  ((l.filter (fun x => isNeg x && p x)).map (fun x => h x.prediction)).sum

/-- All (positive, negative) pairs of samples of the dataset. -/
def posNegPairs (l : List (AUCDatum α)) : List (AUCDatum α × AUCDatum α) :=
  List.product (l.filter isPos) (l.filter isNeg)

/-- The number `C` of (positive, negative) pairs whose positive has the strictly greater
prediction. -/
def concordantPairs (l : List (AUCDatum α)) : Nat :=
  (posNegPairs l).countP (fun pn => decide (pn.2.prediction < pn.1.prediction))

/-- The number `T` of (positive, negative) pairs with equal predictions. -/
def tiedPairs (l : List (AUCDatum α)) : Nat :=
  (posNegPairs l).countP (fun pn => decide (pn.1.prediction = pn.2.prediction))

/-- The loop body in unbounded integers, with `f` applied to the sum `tp + tp0`; `f` is the
identity for the scan in unbounded integers and reduction modulo `2 ^ 32` for the code. -/
def stepWith (f : Nat → Nat) (s : ScanState α) (d : AUCDatum α) : ScanState α :=
  let s1 : ScanState α :=
    if d.prediction ≠ s.threshold then
      { threshold := d.prediction
        accum := s.accum + f (s.tp + s.tp0) * s.tn
        tp0 := s.tp
        tn := 0
        tp := s.tp }
    else s
  { s1 with tn := s1.tn + (1 - d.ground_truth), tp := s1.tp - d.ground_truth }

/-- The flush of line 117 in unbounded integers. -/
def flushExact (s : ScanState α) : Nat := s.accum + s.tp0 * s.tn

/-- The same scan as `scan` in unbounded integers: no operation wraps. -/
def scanExact (ones : Nat) : List (AUCDatum α) → Nat
  | [] => 0
  | d :: pFI => flushExact ((d :: pFI).foldl (stepWith id) (scanInit ones d.prediction))

/-- The value of `accum` on line 119 when the scan is run in unbounded integers. -/
def accumExactOf (pFI : List (AUCDatum α)) : Nat :=
  scanExact (countOnes pFI) (qsort cbCompareAUCDatumPrediction pFI)

/-- The closed form of the scan: every negative contributes `f` of the number of positives at
or above its prediction plus the number of positives strictly above it. -/
def trapezoidSum (f : Nat → Nat) (l : List (AUCDatum α)) : Nat :=
  negSum (fun _ => true) (fun v => f (posAtOrAbove l v + posAbove l v)) l

/-- No fixed-width operation of the remaining `n` iterations and of the flush can wrap, apart
from the 32-bit sum `tp + tp0`. -/
def NoWrap (s : ScanState α) (n : Nat) : Prop :=
  s.tp < UINT_MOD ∧ s.tp0 < UINT_MOD ∧ s.accum + UINT_MOD * (s.tn + n) < UINT64_MOD


/-- Neither early return of lines 91-98 is taken: the call gets past the degeneracy checks. -/
def PassesChecks (pFI : List (AUCDatum α)) : Prop :=
  ¬ (0 = countOnes pFI) ∧ ¬ (pFI.length = countOnes pFI)

instance instDecidablePassesChecks (pFI : List (AUCDatum α)) : Decidable (PassesChecks pFI) := by
  unfold PassesChecks; infer_instance

/-- The dataset with `f` applied to every prediction; the labels are kept. -/
def mapPrediction {β : Type} (f : α → β) (l : List (AUCDatum α)) : List (AUCDatum β) :=
  l.map (fun d => ⟨d.ground_truth, f d.prediction⟩)

/-- The maximal runs of adjacent samples with equal prediction, in the order of the array. -/
def runs : List (AUCDatum α) → List (List (AUCDatum α))
  | [] => []
  | d :: l =>
    match runs l with
    | [] => [[d]]
    | [] :: gs => [d] :: gs
    | (e :: g) :: gs =>
      if d.prediction = e.prediction then (d :: e :: g) :: gs else [d] :: (e :: g) :: gs

/-- The documented sum over the runs `g_1 .. g_m`: run `g_k` contributes
`(TP(k-1) + TP(k)) * dTN(k)`, where `TP(k-1)` is the number of positives in `g_k .. g_m`,
`TP(k)` the number of positives in `g_(k+1) .. g_m` and `dTN(k)` the number of negatives in
`g_k`. -/
def groupedTrapezoidSum : List (List (AUCDatum α)) → Nat
  | [] => 0
  | g :: gs =>
    (numPos (g :: gs).flatten + numPos gs.flatten) * numNeg g + groupedTrapezoidSum gs

/-- The sample with the label `g` replaced by `1 - g`. -/
def flipLabel (d : AUCDatum α) : AUCDatum α := ⟨1 - d.ground_truth, d.prediction⟩

/-- The dataset with every label `g` replaced by `1 - g`; the predictions are kept. -/
def flipLabels (l : List (AUCDatum α)) : List (AUCDatum α) := l.map flipLabel

/-- The number of (positive, negative) pairs whose positive has the strictly smaller
prediction. -/
def discordantPairs (l : List (AUCDatum α)) : Nat :=
  (posNegPairs l).countP (fun pn => decide (pn.1.prediction < pn.2.prediction))

end Vocabulary

/-! ## Concrete datasets -/

/-- A small dataset with mixed labels: the documented example with the predictions in tenths. -/
def sampleData : List (AUCDatum Nat) := [⟨0, 1⟩, ⟨0, 30⟩, ⟨1, 8⟩]

/-- A dataset whose predictions are all tied. -/
def tiedData : List (AUCDatum Nat) := [⟨1, 4⟩, ⟨0, 4⟩, ⟨0, 4⟩, ⟨1, 4⟩, ⟨0, 4⟩]

/-- The dataset `sampleData` in another order. -/
def sampleDataShuffled : List (AUCDatum Nat) := [⟨1, 8⟩, ⟨0, 1⟩, ⟨0, 30⟩]

/-- A sorted dataset with a tie between a positive and a negative. -/
def sortedTies : List (AUCDatum Nat) := [⟨0, 1⟩, ⟨1, 2⟩, ⟨0, 2⟩, ⟨1, 3⟩]

/-- The dataset `sortedTies` with the tie in the other order. -/
def sortedTiesSwapped : List (AUCDatum Nat) := [⟨0, 1⟩, ⟨0, 2⟩, ⟨1, 2⟩, ⟨1, 3⟩]

/-- The documented example `0, 0.1`, `0, 3`, `1, 0.8`. -/
def documentedExample : List (AUCDatum ℚ) := [⟨0, 1 / 10⟩, ⟨0, 3⟩, ⟨1, 4 / 5⟩]

/-- One negative at prediction 0 below `n` positives at prediction 1. -/
def separatedData (n : Nat) : List (AUCDatum Nat) := ⟨0, 0⟩ :: List.replicate n ⟨1, 1⟩

/-- One negative at prediction 0 below `2 ^ 31` positives at prediction 1: `2 ^ 31 + 1` samples,
perfectly separated. -/
def overflowData : List (AUCDatum Nat) := separatedData (2 ^ 31)

/-- A dataset whose labels are all 0. -/
def allNegativeData : List (AUCDatum Nat) := [⟨0, 3⟩, ⟨0, 1⟩]

/-- A dataset with a single sample. -/
def singletonData : List (AUCDatum Nat) := [⟨1, 5⟩]

/-- A strictly increasing map of the predictions. -/
def doublePlusOne (x : Nat) : Nat := 2 * x + 1

/-- `N` negatives followed by `P` positives, all negatives at prediction `u` and all positives
at prediction `w`. -/
def twoBlockData (N P u w : Nat) : List (AUCDatum Nat) :=
  List.replicate N ⟨0, u⟩ ++ List.replicate P ⟨1, w⟩

/-- A perfectly separated dataset with 94906313 negatives at 0 and 94906219 positives at 1. -/
def largeSeparatedData : List (AUCDatum Nat) := twoBlockData 94906313 94906219 0 1

/-- A dataset with 94906313 negatives and 94906219 positives, all predictions tied at 0. -/
def largeTiedData : List (AUCDatum Nat) := twoBlockData 94906313 94906219 0 0

/-- A perfectly inverted dataset: the positive is below both negatives. -/
def invertedData : List (AUCDatum Nat) := [⟨0, 5⟩, ⟨1, 2⟩, ⟨0, 7⟩]

/-! ## Counting the labels -/

section Counting

variable {α : Type} [LinearOrder α]

theorem numPos_add_numNeg (l : List (AUCDatum α)) (h : BinaryLabels l) :
    numPos l + numNeg l = l.length := by
  induction l with
  | nil => rfl
  | cons d l ih =>
    have hl : BinaryLabels l := fun x hx => h x (List.mem_cons_of_mem _ hx)
    have := ih hl
    rcases h d (List.mem_cons_self _ _) with h0 | h1
    · simp [numPos, numNeg, List.countP_cons, isPos, isNeg, h0] at *; omega
    · simp [numPos, numNeg, List.countP_cons, isPos, isNeg, h1] at *; omega

theorem countOnes_foldl (l : List (AUCDatum α)) (h : BinaryLabels l) :
    ∀ c, c + l.length < UINT_MOD →
      l.foldl (fun ones d => (ones + d.ground_truth) % UINT_MOD) c = c + numPos l := by
  induction l with
  | nil => intro c _; simp [numPos]
  | cons d l ih =>
    intro c hc
    have hl : BinaryLabels l := fun x hx => h x (List.mem_cons_of_mem _ hx)
    simp only [List.length_cons] at hc
    rw [List.foldl_cons]
    rcases h d (List.mem_cons_self _ _) with h0 | h1
    · rw [h0, Nat.add_zero, Nat.mod_eq_of_lt (by omega), ih hl c (by omega)]
      simp [numPos, List.countP_cons, isPos, h0]
    · rw [h1, Nat.mod_eq_of_lt (by omega), ih hl (c + 1) (by omega)]
      simp [numPos, List.countP_cons, isPos, h1]; omega

theorem countOnes_eq (l : List (AUCDatum α)) (h : BinaryLabels l) (hlen : l.length < UINT_MOD) :
    countOnes l = numPos l := by
  have := countOnes_foldl l h 0 (by omega)
  simpa [countOnes] using this

end Counting

/-! ## The closed form of the scan in unbounded integers -/

section ClosedForm

variable {α : Type} [LinearOrder α]

theorem negSum_cons (p : AUCDatum α → Bool) (h : α → Nat) (d : AUCDatum α) (l : List (AUCDatum α)) :
    negSum p h (d :: l) = (if (isNeg d && p d) = true then h d.prediction else 0) + negSum p h l := by
  unfold negSum
  by_cases hd : (isNeg d && p d) = true
  · simp [List.filter_cons, hd]
  · simp [List.filter_cons, hd]

theorem negSum_congr (p p' : AUCDatum α → Bool) (h h' : α → Nat) (l : List (AUCDatum α))
    (hp : ∀ x ∈ l, p x = p' x)
    (hh : ∀ x ∈ l, isNeg x = true → p x = true → h x.prediction = h' x.prediction) :
    negSum p h l = negSum p' h' l := by
  induction l with
  | nil => rfl
  | cons d l ih =>
    rw [negSum_cons, negSum_cons, ih (fun x hx => hp x (List.mem_cons_of_mem _ hx))
      (fun x hx => hh x (List.mem_cons_of_mem _ hx)), ← hp d (List.mem_cons_self _ _)]
    by_cases hd : (isNeg d && p d) = true
    · simp only [hd, if_true]
      simp only [Bool.and_eq_true] at hd
      rw [hh d (List.mem_cons_self _ _) hd.1 hd.2]
    · simp [hd]

theorem negSum_split (h : α → Nat) (v : α) (l : List (AUCDatum α))
    (hv : ∀ x ∈ l, v ≤ x.prediction) :
    negSum (fun _ => true) h l
      = negAt l v * h v + negSum (fun x => decide (v < x.prediction)) h l := by
  induction l with
  | nil => simp [negSum, negAt]
  | cons d l ih =>
    rw [negSum_cons, negSum_cons, ih (fun x hx => hv x (List.mem_cons_of_mem _ hx))]
    have hd := hv d (List.mem_cons_self _ _)
    simp only [negAt, List.countP_cons]
    rcases eq_or_lt_of_le hd with he | hlt
    · subst he
      by_cases hn : isNeg d = true
      · simp [hn]; ring
      · simp [hn]
    · have hne : d.prediction ≠ v := ne_of_gt hlt
      by_cases hn : isNeg d = true
      · simp [hn, hlt, hne]; ring
      · simp [hn]


theorem BinaryLabels.tail {d : AUCDatum α} {l : List (AUCDatum α)} (h : BinaryLabels (d :: l)) :
    BinaryLabels l := fun x hx => h x (List.mem_cons_of_mem _ hx)

theorem numPos_cons (d : AUCDatum α) (l : List (AUCDatum α)) :
    numPos (d :: l) = numPos l + (if d.ground_truth = 1 then 1 else 0) := by
  simp [numPos, List.countP_cons, isPos]

/-- A sample strictly below `v` is not counted among the positives at or above `v`. -/
theorem posAtOrAbove_cons_of_lt {d : AUCDatum α} {v : α} (l : List (AUCDatum α))
    (h : d.prediction < v) : posAtOrAbove (d :: l) v = posAtOrAbove l v := by
  simp [posAtOrAbove, List.countP_cons, not_le.mpr h]

theorem posAbove_cons_of_le {d : AUCDatum α} {v : α} (l : List (AUCDatum α))
    (h : d.prediction ≤ v) : posAbove (d :: l) v = posAbove l v := by
  simp [posAbove, List.countP_cons, not_lt.mpr h]

theorem posAbove_eq_numPos {v : α} (l : List (AUCDatum α)) (h : ∀ x ∈ l, v < x.prediction) :
    posAbove l v = numPos l := by
  unfold posAbove numPos
  apply List.countP_congr
  intro x hx
  simp [h x hx]

theorem posAtOrAbove_eq_numPos {v : α} (l : List (AUCDatum α)) (h : ∀ x ∈ l, v ≤ x.prediction) :
    posAtOrAbove l v = numPos l := by
  unfold posAtOrAbove numPos
  apply List.countP_congr
  intro x hx
  simp [h x hx]

theorem negAt_eq_zero {v : α} (l : List (AUCDatum α)) (h : ∀ x ∈ l, v < x.prediction) :
    negAt l v = 0 := by
  unfold negAt
  rw [List.countP_eq_zero]
  intro x hx
  simp [ne_of_gt (h x hx)]

/-- The flushed accumulator of the scan started in state `s` on a sorted remainder `suf`. -/
theorem foldl_stepWith_flush (f : Nat → Nat) (K : Nat) (hf : ∀ a, a ≤ K → f a = a) :
    ∀ (suf : List (AUCDatum α)) (s : ScanState α),
      BinaryLabels suf → SortedByPrediction suf →
      (∀ x ∈ suf, s.threshold ≤ x.prediction) → s.tp = numPos suf → s.tp0 ≤ K → numPos suf ≤ K →
      flushExact (suf.foldl (stepWith f) s)
        = s.accum + (s.tn + negAt suf s.threshold) * f (s.tp0 + posAbove suf s.threshold)
          + negSum (fun x => decide (s.threshold < x.prediction))
              (fun v => f (posAtOrAbove suf v + posAbove suf v)) suf := by
  intro suf
  induction suf with
  | nil =>
    intro s _ _ _ _ h0 _
    simp [flushExact, negAt, posAbove, negSum, hf _ h0, Nat.mul_comm]
  | cons d rest ih =>
    intro s hb hs hthr htp h0 hK
    have hbr : BinaryLabels rest := hb.tail
    have hsr : SortedByPrediction rest := (List.pairwise_cons.mp hs).2
    have hdr : ∀ x ∈ rest, d.prediction ≤ x.prediction := (List.pairwise_cons.mp hs).1
    have hd : s.threshold ≤ d.prediction := hthr d (List.mem_cons_self _ _)
    have hle : numPos rest ≤ numPos (d :: rest) := by rw [numPos_cons]; omega
    have hsub : numPos (d :: rest) - d.ground_truth = numPos rest := by
      rw [numPos_cons]
      rcases hb d (List.mem_cons_self _ _) with g | g <;> simp [g]
    rw [List.foldl_cons]
    rcases eq_or_lt_of_le hd with he | hlt
    · -- same threshold
      have hstep : stepWith f s d =
          { s with tn := s.tn + (1 - d.ground_truth), tp := s.tp - d.ground_truth } := by
        simp [stepWith, he]
      have IH := ih (stepWith f s d) hbr hsr
        (by rw [hstep]; exact fun x hx => hthr x (List.mem_cons_of_mem _ hx))
        (by rw [hstep]; simp only []; rw [htp, hsub])
        (by rw [hstep]; exact h0) (by omega)
      rw [IH, hstep]
      simp only []
      rw [posAbove_cons_of_le rest (le_of_eq he.symm), negSum_cons]
      have hfil : (isNeg d && decide (s.threshold < d.prediction)) = false := by
        simp [he]
      rw [hfil]
      have hneg : negAt (d :: rest) s.threshold = negAt rest s.threshold + (1 - d.ground_truth) := by
        rcases hb d (List.mem_cons_self _ _) with g | g <;>
          simp [negAt, List.countP_cons, isNeg, g, he]
      rw [hneg]
      have hsum : negSum (fun x => decide (s.threshold < x.prediction))
            (fun v => f (posAtOrAbove rest v + posAbove rest v)) rest
          = negSum (fun x => decide (s.threshold < x.prediction))
            (fun v => f (posAtOrAbove (d :: rest) v + posAbove (d :: rest) v)) rest := by
        apply negSum_congr _ _ _ _ _ (fun _ _ => rfl)
        intro x _ _ hx
        have hx' : d.prediction < x.prediction := by
          rw [← he]; simpa using hx
        rw [posAtOrAbove_cons_of_lt rest hx', posAbove_cons_of_le rest (le_of_lt hx')]
      rw [hsum]
      simp only [Bool.false_eq_true, if_false, Nat.zero_add]
      ring
    · -- the threshold changes
      have hne : d.prediction ≠ s.threshold := ne_of_gt hlt
      have hstep : stepWith f s d =
          { threshold := d.prediction
            accum := s.accum + f (s.tp + s.tp0) * s.tn
            tp0 := s.tp
            tn := 0 + (1 - d.ground_truth)
            tp := s.tp - d.ground_truth } := by
        simp [stepWith, hne]
      have IH := ih (stepWith f s d) hbr hsr
        (by rw [hstep]; exact hdr)
        (by rw [hstep]; simp only []; rw [htp, hsub])
        (by rw [hstep]; simp only []; omega) (by omega)
      rw [IH, hstep]
      simp only []
      have hall : ∀ x ∈ d :: rest, s.threshold < x.prediction := by
        intro x hx
        rcases List.mem_cons.mp hx with rfl | hx
        · exact hlt
        · exact lt_of_lt_of_le hlt (hdr x hx)
      have hall' : ∀ x ∈ d :: rest, d.prediction ≤ x.prediction := by
        intro x hx
        rcases List.mem_cons.mp hx with rfl | hx
        · exact le_refl _
        · exact hdr x hx
      rw [negAt_eq_zero _ hall, posAbove_eq_numPos _ hall, ← htp]
      have e1 : negSum (fun x => decide (s.threshold < x.prediction))
            (fun v => f (posAtOrAbove (d :: rest) v + posAbove (d :: rest) v)) (d :: rest)
          = negSum (fun _ => true)
            (fun v => f (posAtOrAbove (d :: rest) v + posAbove (d :: rest) v)) (d :: rest) :=
        negSum_congr _ _ _ _ _ (fun x hx => by simp [hall x hx]) (fun _ _ _ _ => rfl)
      rw [e1, negSum_split _ d.prediction _ hall', negSum_cons]
      have hfil : (isNeg d && decide (d.prediction < d.prediction)) = false := by simp
      rw [hfil]
      have hneg : negAt (d :: rest) d.prediction = negAt rest d.prediction + (1 - d.ground_truth) := by
        rcases hb d (List.mem_cons_self _ _) with g | g <;>
          simp [negAt, List.countP_cons, isNeg, g]
      rw [hneg, posAtOrAbove_eq_numPos _ hall', posAbove_cons_of_le rest (le_refl _), ← htp]
      have hsum : negSum (fun x => decide (d.prediction < x.prediction))
            (fun v => f (posAtOrAbove rest v + posAbove rest v)) rest
          = negSum (fun x => decide (d.prediction < x.prediction))
            (fun v => f (posAtOrAbove (d :: rest) v + posAbove (d :: rest) v)) rest := by
        apply negSum_congr _ _ _ _ _ (fun _ _ => rfl)
        intro x _ _ hx
        have hx' : d.prediction < x.prediction := by simpa using hx
        rw [posAtOrAbove_cons_of_lt rest hx', posAbove_cons_of_le rest (le_of_lt hx')]
      rw [hsum]
      simp only [Bool.false_eq_true, if_false, Nat.zero_add, Nat.add_zero]
      rw [Nat.add_comm s.tp s.tp0]
      ring

end ClosedForm

/-! ## The fixed-width scan -/

section FixedWidth

variable {α : Type} [LinearOrder α]

theorem wrap_tn (tn g : Nat) (h : tn + 1 < UINT_MOD) (hg : g = 0 ∨ g = 1) :
    (tn + (1 + UINT_MOD - g % UINT_MOD) % UINT_MOD) % UINT_MOD = tn + (1 - g) := by
  rcases hg with g0 | g1
  · subst g0; norm_num [UINT_MOD] at *; omega
  · subst g1; norm_num [UINT_MOD] at *; omega

theorem wrap_tp (tp g : Nat) (h : tp < UINT_MOD) (hle : g ≤ tp) (hg : g = 0 ∨ g = 1) :
    (tp + UINT_MOD - g % UINT_MOD) % UINT_MOD = tp - g := by
  rcases hg with g0 | g1
  · subst g0; norm_num [UINT_MOD] at *; omega
  · subst g1; norm_num [UINT_MOD] at *; omega

theorem wrap_accum (accum x tn : Nat) (h : accum + UINT_MOD * tn < UINT64_MOD) :
    (accum + (x % UINT_MOD * tn) % UINT64_MOD) % UINT64_MOD = accum + x % UINT_MOD * tn := by
  have hx : x % UINT_MOD * tn ≤ UINT_MOD * tn :=
    Nat.mul_le_mul_right _ (le_of_lt (Nat.mod_lt _ (by norm_num [UINT_MOD])))
  rw [Nat.mod_eq_of_lt (a := x % UINT_MOD * tn) (by omega), Nat.mod_eq_of_lt (by omega)]

theorem NoWrap.tn_lt {s : ScanState α} {n : Nat} (hw : NoWrap s n) : s.tn + n < UINT_MOD := by
  obtain ⟨_, _, h3⟩ := hw
  by_contra hc
  have : UINT_MOD * UINT_MOD ≤ UINT_MOD * (s.tn + n) := Nat.mul_le_mul_left _ (by omega)
  norm_num [UINT_MOD, UINT64_MOD] at *
  omega

theorem scanStep_eq_stepWith (s : ScanState α) (d : AUCDatum α) (n : Nat)
    (hw : NoWrap s (n + 1)) (hg : d.ground_truth = 0 ∨ d.ground_truth = 1)
    (hle : d.ground_truth ≤ s.tp) :
    scanStep s d = stepWith (fun a => a % UINT_MOD) s d := by
  have htn := hw.tn_lt
  obtain ⟨h1, h2, h3⟩ := hw
  have h3' : s.accum + UINT_MOD * s.tn < UINT64_MOD := by
    rw [Nat.mul_add] at h3; omega
  unfold scanStep stepWith
  by_cases hc : d.prediction ≠ s.threshold
  · rw [if_pos hc, if_pos hc]
    simp only []
    rw [wrap_tn 0 _ (by norm_num [UINT_MOD]) hg, wrap_tp _ _ h1 hle hg, wrap_accum _ _ _ h3']
  · rw [if_neg hc, if_neg hc]
    dsimp only
    rw [wrap_tn _ _ (by omega) hg, wrap_tp _ _ h1 hle hg]

theorem stepWith_noWrap (s : ScanState α) (d : AUCDatum α) (n : Nat)
    (hw : NoWrap s (n + 1)) :
    NoWrap (stepWith (fun a => a % UINT_MOD) s d) n := by
  obtain ⟨h1, h2, h3⟩ := hw
  have hx : (s.tp + s.tp0) % UINT_MOD * s.tn ≤ UINT_MOD * s.tn :=
    Nat.mul_le_mul_right _ (le_of_lt (Nat.mod_lt _ (by norm_num [UINT_MOD])))
  have hg1 : 1 - d.ground_truth ≤ 1 := by omega
  unfold stepWith NoWrap
  by_cases hc : d.prediction ≠ s.threshold
  · rw [if_pos hc]
    simp only []
    refine ⟨by omega, h1, ?_⟩
    have : UINT_MOD * (0 + (1 - d.ground_truth) + n) ≤ UINT_MOD * (n + 1) :=
      Nat.mul_le_mul_left _ (by omega)
    rw [Nat.mul_add] at h3
    omega
  · rw [if_neg hc]
    simp only []
    refine ⟨by omega, h2, ?_⟩
    have : UINT_MOD * (s.tn + (1 - d.ground_truth) + n) ≤ UINT_MOD * (s.tn + (n + 1)) :=
      Nat.mul_le_mul_left _ (by omega)
    omega

theorem stepWith_tp (f : Nat → Nat) (s : ScanState α) (d : AUCDatum α) :
    (stepWith f s d).tp = s.tp - d.ground_truth := by
  unfold stepWith
  by_cases hc : d.prediction ≠ s.threshold
  · rw [if_pos hc]
  · rw [if_neg hc]

/-- Under `NoWrap` the loop of the code is the unbounded loop with the 32-bit sum. -/
theorem foldl_scanStep_eq :
    ∀ (l : List (AUCDatum α)) (s : ScanState α),
      BinaryLabels l → numPos l ≤ s.tp → NoWrap s l.length →
      l.foldl scanStep s = l.foldl (stepWith (fun a => a % UINT_MOD)) s ∧
        NoWrap (l.foldl (stepWith (fun a => a % UINT_MOD)) s) 0 := by
  intro l
  induction l with
  | nil => intro s _ _ hw; exact ⟨rfl, hw⟩
  | cons d rest ih =>
    intro s hb hp hw
    have hg := hb d (List.mem_cons_self _ _)
    have hle : d.ground_truth ≤ s.tp := by
      rw [numPos_cons] at hp
      rcases hg with g | g <;> simp [g] at hp ⊢
      omega
    have hp' : numPos rest ≤ s.tp - d.ground_truth := by
      rw [numPos_cons] at hp
      rcases hg with g | g <;> simp [g] at hp ⊢ <;> omega
    rw [List.foldl_cons, List.foldl_cons, scanStep_eq_stepWith s d rest.length hw hg hle]
    exact ih _ hb.tail (by rw [stepWith_tp]; exact hp') (stepWith_noWrap s d _ hw)

theorem scanFlush_eq_flushExact (s : ScanState α) (hw : NoWrap s 0) :
    scanFlush s = flushExact s := by
  obtain ⟨h1, h2, h3⟩ := hw
  have hx : s.tp0 * s.tn ≤ UINT_MOD * s.tn := Nat.mul_le_mul_right _ (le_of_lt h2)
  unfold scanFlush flushExact
  rw [Nat.add_zero] at h3
  rw [Nat.mod_eq_of_lt (a := s.tp0 * s.tn) (by omega), Nat.mod_eq_of_lt (by omega)]

end FixedWidth

/-! ## The sort and the accumulator of `CalculateAUC` -/

section Accumulator

variable {α : Type} [LinearOrder α]

theorem numPos_le_length (l : List (AUCDatum α)) : numPos l ≤ l.length :=
  List.countP_le_length _

/-- The unbounded scan with `f` on the sum, started as the code starts it, in closed form. -/
theorem flush_foldl_stepWith_init (f : Nat → Nat) (K : Nat) (hf : ∀ a, a ≤ K → f a = a)
    (d : AUCDatum α) (rest : List (AUCDatum α)) (hb : BinaryLabels (d :: rest))
    (hs : SortedByPrediction (d :: rest)) (hK : numPos (d :: rest) ≤ K) :
    flushExact ((d :: rest).foldl (stepWith f) (scanInit (numPos (d :: rest)) d.prediction))
      = trapezoidSum f (d :: rest) := by
  have hall : ∀ x ∈ d :: rest, d.prediction ≤ x.prediction := by
    intro x hx
    rcases List.mem_cons.mp hx with rfl | hx
    · exact le_refl _
    · exact (List.pairwise_cons.mp hs).1 x hx
  rw [foldl_stepWith_flush f K hf (d :: rest) (scanInit (numPos (d :: rest)) d.prediction) hb hs
    hall rfl hK hK]
  unfold trapezoidSum
  rw [negSum_split _ d.prediction _ hall, posAtOrAbove_eq_numPos _ hall]
  simp [scanInit]

theorem scanExact_eq_trapezoidSum (l : List (AUCDatum α)) (hb : BinaryLabels l)
    (hs : SortedByPrediction l) : scanExact (numPos l) l = trapezoidSum id l := by
  cases l with
  | nil => rfl
  | cons d rest =>
    exact flush_foldl_stepWith_init id (numPos (d :: rest)) (fun _ _ => rfl) d rest hb hs (le_refl _)

theorem noWrap_scanInit (ones n : Nat) (v : α) (h : ones ≤ n) (hn : n < UINT_MOD) :
    NoWrap (scanInit ones v) n := by
  refine ⟨by simp only [scanInit]; omega, by simp only [scanInit]; omega, ?_⟩
  simp only [scanInit]
  have : UINT_MOD * (n + 1) ≤ UINT_MOD * UINT_MOD := Nat.mul_le_mul_left _ (by omega)
  norm_num [UINT_MOD, UINT64_MOD] at *
  omega

theorem scan_eq_trapezoidSum (l : List (AUCDatum α)) (hb : BinaryLabels l)
    (hs : SortedByPrediction l) (hlen : l.length < UINT_MOD) :
    scan (numPos l) l = trapezoidSum (fun a => a % UINT_MOD) l := by
  cases l with
  | nil => rfl
  | cons d rest =>
    have hw := noWrap_scanInit (numPos (d :: rest)) (d :: rest).length d.prediction
      (numPos_le_length _) hlen
    obtain ⟨h1, h2⟩ := foldl_scanStep_eq (d :: rest) _ hb (le_refl _) hw
    show scanFlush ((d :: rest).foldl scanStep (scanInit (numPos (d :: rest)) d.prediction)) = _
    rw [h1, scanFlush_eq_flushExact _ h2]
    exact flush_foldl_stepWith_init _ (UINT_MOD - 1)
      (fun a ha => Nat.mod_eq_of_lt (by have : 0 < UINT_MOD := by norm_num [UINT_MOD]
                                        omega)) d rest hb hs
      (by have := numPos_le_length (d :: rest); omega)


theorem negSum_perm (p : AUCDatum α → Bool) (h : α → Nat) {l l' : List (AUCDatum α)}
    (hp : l.Perm l') : negSum p h l = negSum p h l' :=
  ((hp.filter _).map _).sum_eq

theorem trapezoidSum_perm (f : Nat → Nat) {l l' : List (AUCDatum α)} (hp : l.Perm l') :
    trapezoidSum f l = trapezoidSum f l' := by
  unfold trapezoidSum
  have h : (fun v => f (posAtOrAbove l v + posAbove l v))
      = (fun v => f (posAtOrAbove l' v + posAbove l' v)) := by
    funext v
    simp only [posAtOrAbove, posAbove, hp.countP_eq]
  rw [h]
  exact negSum_perm _ _ hp

theorem numPos_perm {l l' : List (AUCDatum α)} (hp : l.Perm l') : numPos l = numPos l' :=
  hp.countP_eq _

theorem numNeg_perm {l l' : List (AUCDatum α)} (hp : l.Perm l') : numNeg l = numNeg l' :=
  hp.countP_eq _

theorem BinaryLabels.perm {l l' : List (AUCDatum α)} (hp : l.Perm l') (h : BinaryLabels l) :
    BinaryLabels l' := fun x hx => h x (hp.mem_iff.mpr hx)

theorem cbCompare_le_iff (a b : AUCDatum α) :
    cbCompareAUCDatumPrediction a b ≤ 0 ↔ a.prediction ≤ b.prediction := by
  unfold cbCompareAUCDatumPrediction
  by_cases h1 : a.prediction = b.prediction
  · simp [h1]
  · by_cases h2 : a.prediction < b.prediction
    · simp [h1, h2, le_of_lt h2]
    · simp [h1, h2]
      exact lt_of_le_of_ne (not_lt.mp h2) (Ne.symm h1)

theorem qsort_perm (pFI : List (AUCDatum α)) :
    (qsort cbCompareAUCDatumPrediction pFI).Perm pFI :=
  List.perm_insertionSort _ _

theorem orderedInsert_sorted (a : AUCDatum α) :
    ∀ l : List (AUCDatum α), SortedByPrediction l →
      SortedByPrediction
        (l.orderedInsert (fun a b => cbCompareAUCDatumPrediction a b ≤ 0) a) := by
  intro l
  induction l with
  | nil => intro _; simp [SortedByPrediction]
  | cons b l ih =>
    intro hs
    have hs' := List.pairwise_cons.mp hs
    rw [List.orderedInsert]
    by_cases h : cbCompareAUCDatumPrediction a b ≤ 0
    · rw [if_pos h]
      have hab := (cbCompare_le_iff a b).mp h
      refine List.pairwise_cons.mpr ⟨?_, hs⟩
      intro x hx
      rcases List.mem_cons.mp hx with rfl | hx
      · exact hab
      · exact le_trans hab (hs'.1 x hx)
    · rw [if_neg h]
      have hba : b.prediction ≤ a.prediction :=
        le_of_lt (not_le.mp (fun hc => h ((cbCompare_le_iff a b).mpr hc)))
      refine List.pairwise_cons.mpr ⟨?_, ih hs'.2⟩
      intro x hx
      rcases (List.mem_orderedInsert _).mp hx with rfl | hx
      · exact hba
      · exact hs'.1 x hx

theorem qsort_sorted (pFI : List (AUCDatum α)) :
    SortedByPrediction (qsort cbCompareAUCDatumPrediction pFI) := by
  unfold qsort
  induction pFI with
  | nil => simp [SortedByPrediction]
  | cons d l ih => exact orderedInsert_sorted d _ ih

/-- The accumulator of the code in closed form. -/
theorem accumOf_eq_trapezoidSum (pFI : List (AUCDatum α)) (hb : BinaryLabels pFI)
    (hlen : pFI.length < UINT_MOD) :
    accumOf pFI = trapezoidSum (fun a => a % UINT_MOD) pFI := by
  have hp := qsort_perm pFI
  unfold accumOf
  rw [countOnes_eq pFI hb hlen, ← numPos_perm hp,
    scan_eq_trapezoidSum _ (hb.perm hp.symm) (qsort_sorted pFI) (by rw [hp.length_eq]; exact hlen),
    trapezoidSum_perm _ hp]

theorem numPos_pos_of_mem {l : List (AUCDatum α)} (h : ∃ d ∈ l, d.ground_truth = 1) :
    0 < numPos l := by
  obtain ⟨d, hd, g⟩ := h
  exact List.countP_pos_iff.mpr ⟨d, hd, by simp [isPos, g]⟩

theorem numNeg_pos_of_mem {l : List (AUCDatum α)} (h : ∃ d ∈ l, d.ground_truth = 0) :
    0 < numNeg l := by
  obtain ⟨d, hd, g⟩ := h
  exact List.countP_pos_iff.mpr ⟨d, hd, by simp [isNeg, g]⟩

/-- What `CalculateAUC` returns, by cases on the label counts. -/
theorem CalculateAUC_cases (pFI : List (AUCDatum α)) (hb : BinaryLabels pFI)
    (hlen : pFI.length < UINT_MOD) :
    CalculateAUC pFI =
      if numPos pFI = 0 then (-1, pFI)
      else if numNeg pFI = 0 then (-2, pFI)
      else ((1 / 2 : ℚ) * (accumOf pFI : ℚ) / (numPos pFI : ℚ) / (numNeg pFI : ℚ),
        qsort cbCompareAUCDatumPrediction pFI) := by
  have hsum := numPos_add_numNeg pFI hb
  have hones := countOnes_eq pFI hb hlen
  unfold CalculateAUC accumOf
  simp only [hones]
  by_cases h0 : numPos pFI = 0
  · simp [h0]
  · rw [if_neg (Ne.symm h0), if_neg h0]
    by_cases h1 : numNeg pFI = 0
    · rw [if_pos (by omega), if_pos h1]
    · rw [if_neg (by omega), if_neg h1]
      have hN : (pFI.length + UINT_MOD - numPos pFI) % UINT_MOD = numNeg pFI := by
        rw [show pFI.length + UINT_MOD - numPos pFI = numNeg pFI + UINT_MOD by omega,
          Nat.add_mod_right, Nat.mod_eq_of_lt (by omega)]
      rw [hN]

theorem posAbove_le_numPos (l : List (AUCDatum α)) (v : α) : posAbove l v ≤ numPos l := by
  unfold posAbove numPos
  apply List.countP_mono_left
  intro x _ hx
  simp only [Bool.and_eq_true] at hx
  exact hx.1

theorem posAtOrAbove_le_numPos (l : List (AUCDatum α)) (v : α) :
    posAtOrAbove l v ≤ numPos l := by
  unfold posAtOrAbove numPos
  apply List.countP_mono_left
  intro x _ hx
  simp only [Bool.and_eq_true] at hx
  exact hx.1

theorem negSum_eq_zero (p : AUCDatum α → Bool) (h : α → Nat) (l : List (AUCDatum α))
    (hz : ∀ x ∈ l, isNeg x = true → p x = true → h x.prediction = 0) : negSum p h l = 0 := by
  rw [negSum_congr p p h (fun _ => 0) l (fun _ _ => rfl) hz]
  simp [negSum]

theorem negSum_const (c : Nat) (l : List (AUCDatum α)) :
    negSum (fun _ => true) (fun _ => c) l = numNeg l * c := by
  induction l with
  | nil => simp [negSum, numNeg]
  | cons d l ih =>
    rw [negSum_cons, ih]
    simp only [numNeg, List.countP_cons]
    by_cases hn : isNeg d = true
    · simp [hn]; ring
    · simp [hn]

theorem numNeg_cons (d : AUCDatum α) (l : List (AUCDatum α)) :
    numNeg (d :: l) = numNeg l + (if d.ground_truth = 0 then 1 else 0) := by
  simp [numNeg, List.countP_cons, isNeg]

/-- On samples that all sit at the current threshold the loop only counts. -/
theorem foldl_stepWith_tied (f : Nat → Nat) :
    ∀ (l : List (AUCDatum α)) (s : ScanState α), BinaryLabels l →
      (∀ d ∈ l, d.prediction = s.threshold) →
      l.foldl (stepWith f) s = { s with tn := s.tn + numNeg l, tp := s.tp - numPos l } := by
  intro l
  induction l with
  | nil => intro s _ _; simp [numNeg, numPos]
  | cons d rest ih =>
    intro s hb ht
    have hd : ¬ d.prediction ≠ s.threshold := not_not.mpr (ht d (List.mem_cons_self _ _))
    have hstep : stepWith f s d =
        { s with tn := s.tn + (1 - d.ground_truth), tp := s.tp - d.ground_truth } := by
      unfold stepWith
      rw [if_neg hd]
    have IH := ih (stepWith f s d) hb.tail
      (by rw [hstep]; exact fun x hx => ht x (List.mem_cons_of_mem _ hx))
    rw [List.foldl_cons, IH, hstep, numNeg_cons, numPos_cons]
    rcases hb d (List.mem_cons_self _ _) with g | g
    · simp [g]; omega
    · simp [g]; omega

theorem sum_map_ite_eq_countP {β : Type} (c : β → Bool) (B : List β) :
    (B.map (fun n => if c n = true then 1 else 0)).sum = B.countP c := by
  induction B with
  | nil => rfl
  | cons b B ih =>
    rw [List.map_cons, List.sum_cons, ih, List.countP_cons]
    omega

/-- Counting pairs of a product list, one second component at a time. -/
theorem countP_product {β γ : Type} (r : β → γ → Bool) (A : List β) (B : List γ) :
    (List.product A B).countP (fun pn => r pn.1 pn.2)
      = (B.map (fun n => A.countP (fun p => r p n))).sum := by
  induction A with
  | nil => simp [List.product]
  | cons a A ih =>
    have h1 : List.product (a :: A) B = B.map (fun b => (a, b)) ++ List.product A B :=
      List.product_cons a A B
    rw [h1, List.countP_append, ih, List.countP_map]
    have h2 : (fun n => (a :: A).countP (fun p => r p n))
        = (fun n => A.countP (fun p => r p n) + (if r a n = true then 1 else 0)) := by
      funext n
      rw [List.countP_cons]
    rw [h2, List.sum_map_add, sum_map_ite_eq_countP, Nat.add_comm]
    rfl

theorem negSum_true_eq (h : α → Nat) (l : List (AUCDatum α)) :
    negSum (fun _ => true) h l = ((l.filter isNeg).map (fun x => h x.prediction)).sum := by
  unfold negSum
  simp only [Bool.and_true]

theorem concordantPairs_eq (l : List (AUCDatum α)) :
    concordantPairs l = negSum (fun _ => true) (posAbove l) l := by
  unfold concordantPairs posNegPairs
  rw [countP_product (fun (p n : AUCDatum α) => decide (n.prediction < p.prediction)),
    negSum_true_eq]
  congr 1
  apply List.map_congr_left
  intro n _
  rw [List.countP_filter]
  unfold posAbove
  apply List.countP_congr
  intro y _
  simp [Bool.and_comm]

theorem tiedPairs_eq (l : List (AUCDatum α)) :
    tiedPairs l = negSum (fun _ => true) (posAt l) l := by
  unfold tiedPairs posNegPairs
  rw [countP_product (fun (p n : AUCDatum α) => decide (p.prediction = n.prediction)),
    negSum_true_eq]
  congr 1
  apply List.map_congr_left
  intro n _
  rw [List.countP_filter]
  unfold posAt
  apply List.countP_congr
  intro y _
  simp [Bool.and_comm]

theorem posAtOrAbove_eq (l : List (AUCDatum α)) (v : α) :
    posAtOrAbove l v = posAt l v + posAbove l v := by
  induction l with
  | nil => rfl
  | cons d l ih =>
    simp only [posAtOrAbove, posAt, posAbove, List.countP_cons] at ih ⊢
    rw [ih]
    by_cases hp : isPos d = true
    · rcases lt_trichotomy v d.prediction with h | h | h
      · simp [hp, h, le_of_lt h, ne_of_gt h]; omega
      · simp [hp, h]; omega
      · simp [hp, not_le.mpr h, not_lt.mpr (le_of_lt h), ne_of_lt h]
    · simp [hp]

theorem negSum_add (p : AUCDatum α → Bool) (h h' : α → Nat) (l : List (AUCDatum α)) :
    negSum p (fun v => h v + h' v) l = negSum p h l + negSum p h' l := by
  unfold negSum
  exact List.sum_map_add

/-- The closed form of the unbounded scan counts the pairs: `2 * C + T`. -/
theorem trapezoidSum_id_eq_pairs (l : List (AUCDatum α)) :
    trapezoidSum id l = 2 * concordantPairs l + tiedPairs l := by
  unfold trapezoidSum
  have h : (fun v => id (posAtOrAbove l v + posAbove l v))
      = (fun v => (posAt l v + posAbove l v) + posAbove l v) := by
    funext v
    rw [posAtOrAbove_eq]
    rfl
  rw [h, negSum_add, negSum_add, ← concordantPairs_eq, ← tiedPairs_eq]
  omega

theorem concordantPairs_perm {l l' : List (AUCDatum α)} (hp : l.Perm l') :
    concordantPairs l = concordantPairs l' := by
  rw [concordantPairs_eq, concordantPairs_eq]
  have h : posAbove l = posAbove l' := by
    funext v
    simp only [posAbove, hp.countP_eq]
  rw [h]
  exact negSum_perm _ _ hp

theorem tiedPairs_perm {l l' : List (AUCDatum α)} (hp : l.Perm l') :
    tiedPairs l = tiedPairs l' := by
  rw [tiedPairs_eq, tiedPairs_eq]
  have h : posAt l = posAt l' := by
    funext v
    simp only [posAt, hp.countP_eq]
  rw [h]
  exact negSum_perm _ _ hp

/-- The accumulator of the scan in unbounded integers is `2 * C + T`, for every dataset. -/
theorem accumExactOf_eq_pairs (pFI : List (AUCDatum α)) (hb : BinaryLabels pFI)
    (hlen : pFI.length < UINT_MOD) :
    accumExactOf pFI = 2 * concordantPairs pFI + tiedPairs pFI := by
  have hp := qsort_perm pFI
  unfold accumExactOf
  rw [countOnes_eq pFI hb hlen, ← numPos_perm hp,
    scanExact_eq_trapezoidSum _ (hb.perm hp.symm) (qsort_sorted pFI), trapezoidSum_id_eq_pairs,
    concordantPairs_perm hp, tiedPairs_perm hp]

/-- When twice the number of positives fits in 32 bits, the 32-bit sum `tp + tp0` does not
wrap and the code computes the accumulator of the unbounded scan. -/
theorem accumOf_eq_accumExactOf (pFI : List (AUCDatum α)) (hb : BinaryLabels pFI)
    (hlen : pFI.length < UINT_MOD) (hsmall : 2 * numPos pFI < UINT_MOD) :
    accumOf pFI = accumExactOf pFI := by
  have hp := qsort_perm pFI
  rw [accumOf_eq_trapezoidSum pFI hb hlen]
  unfold accumExactOf
  rw [countOnes_eq pFI hb hlen, ← numPos_perm hp,
    scanExact_eq_trapezoidSum _ (hb.perm hp.symm) (qsort_sorted pFI), trapezoidSum_perm _ hp]
  unfold trapezoidSum
  apply negSum_congr _ _ _ _ _ (fun _ _ => rfl)
  intro x _ _ _
  have h1 := posAbove_le_numPos pFI x.prediction
  have h2 := posAtOrAbove_le_numPos pFI x.prediction
  exact Nat.mod_eq_of_lt (by omega)

/-- The score on a dataset with mixed labels is `accum / (2*P*N)`. -/
theorem score_eq (pFI : List (AUCDatum α)) (hlen : pFI.length < UINT_MOD)
    (hb : BinaryLabels pFI) (h0 : ∃ d ∈ pFI, d.ground_truth = 0)
    (h1 : ∃ d ∈ pFI, d.ground_truth = 1) :
    (CalculateAUC pFI).1 = (accumOf pFI : ℚ) / (2 * numPos pFI * numNeg pFI) := by
  have hP := numPos_pos_of_mem h1
  have hN := numNeg_pos_of_mem h0
  have hPq : (0 : ℚ) < numPos pFI := by exact_mod_cast hP
  have hNq : (0 : ℚ) < numNeg pFI := by exact_mod_cast hN
  rw [CalculateAUC_cases pFI hb hlen, if_neg (by omega), if_neg (by omega)]
  field_simp

/-- Under perfect separation every (positive, negative) pair is concordant. -/
theorem pairs_of_separated (l : List (AUCDatum α))
    (hsep : ∀ p ∈ l, ∀ n ∈ l, p.ground_truth = 1 → n.ground_truth = 0 →
      n.prediction < p.prediction) :
    concordantPairs l = numNeg l * numPos l ∧ tiedPairs l = 0 := by
  constructor
  · rw [concordantPairs_eq, ← negSum_const]
    apply negSum_congr _ _ _ _ _ (fun _ _ => rfl)
    intro x hx hn _
    have hxn : x.ground_truth = 0 := by simpa [isNeg] using hn
    unfold posAbove numPos
    apply List.countP_congr
    intro y hy
    by_cases hy1 : y.ground_truth = 1
    · simp [isPos, hy1, hsep y hy x hx hy1 hxn]
    · simp [isPos, hy1]
  · rw [tiedPairs_eq]
    apply negSum_eq_zero
    intro x hx hn _
    have hxn : x.ground_truth = 0 := by simpa [isNeg] using hn
    unfold posAt
    rw [List.countP_eq_zero]
    intro y hy
    simp only [Bool.and_eq_true, decide_eq_true_eq, isPos, not_and]
    intro hy1
    exact ne_of_gt (hsep y hy x hx hy1 hxn)

/-- The pair-counting identity of the code where the 32-bit sum cannot wrap: when twice the
number of positives is below `2 ^ 32`, the accumulator is `2 * C + T` and the score is
`(C + T / 2) / (P * N)`. -/
theorem accumOf_eq_pairs_of_small (pFI : List (AUCDatum α)) (hlen : pFI.length < UINT_MOD)
    (hb : BinaryLabels pFI) (h0 : ∃ d ∈ pFI, d.ground_truth = 0)
    (h1 : ∃ d ∈ pFI, d.ground_truth = 1) (hsmall : 2 * numPos pFI < UINT_MOD) :
    accumOf pFI = 2 * concordantPairs pFI + tiedPairs pFI ∧
      (CalculateAUC pFI).1
        = ((concordantPairs pFI : ℚ) + (tiedPairs pFI : ℚ) / 2) / (numPos pFI * numNeg pFI) := by
  have hacc : accumOf pFI = 2 * concordantPairs pFI + tiedPairs pFI := by
    rw [accumOf_eq_accumExactOf pFI hb hlen hsmall, accumExactOf_eq_pairs pFI hb hlen]
  refine ⟨hacc, ?_⟩
  have hP := numPos_pos_of_mem h1
  have hN := numNeg_pos_of_mem h0
  have hPq : (numPos pFI : ℚ) ≠ 0 := by exact_mod_cast (Nat.pos_iff_ne_zero.mp hP)
  have hNq : (numNeg pFI : ℚ) ≠ 0 := by exact_mod_cast (Nat.pos_iff_ne_zero.mp hN)
  rw [score_eq pFI hlen hb h0 h1, hacc]
  push_cast
  field_simp
  ring

/-- Perfect separation where the 32-bit sum cannot wrap: the accumulator is `2 * P * N` and
the score is 1. -/
theorem separated_of_small (pFI : List (AUCDatum α)) (hlen : pFI.length < UINT_MOD)
    (hb : BinaryLabels pFI) (h0 : ∃ d ∈ pFI, d.ground_truth = 0)
    (h1 : ∃ d ∈ pFI, d.ground_truth = 1) (hsmall : 2 * numPos pFI < UINT_MOD)
    (hsep : ∀ p ∈ pFI, ∀ n ∈ pFI, p.ground_truth = 1 → n.ground_truth = 0 →
      n.prediction < p.prediction) :
    accumOf pFI = 2 * numPos pFI * numNeg pFI ∧ (CalculateAUC pFI).1 = 1 := by
  have hpairs := pairs_of_separated pFI hsep
  have hacc : accumOf pFI = 2 * numPos pFI * numNeg pFI := by
    rw [(accumOf_eq_pairs_of_small pFI hlen hb h0 h1 hsmall).1, hpairs.1, hpairs.2]
    ring
  refine ⟨hacc, ?_⟩
  have hP := numPos_pos_of_mem h1
  have hN := numNeg_pos_of_mem h0
  have hPq : (numPos pFI : ℚ) ≠ 0 := by exact_mod_cast (Nat.pos_iff_ne_zero.mp hP)
  have hNq : (numNeg pFI : ℚ) ≠ 0 := by exact_mod_cast (Nat.pos_iff_ne_zero.mp hN)
  rw [score_eq pFI hlen hb h0 h1, hacc]
  push_cast
  field_simp

end Accumulator

/-! ## The code on a dataset with `2 ^ 31` positives -/

section Overflow

theorem separatedData_length (n : Nat) : (separatedData n).length = n + 1 := by
  simp [separatedData]

theorem separatedData_binary (n : Nat) : BinaryLabels (separatedData n) := by
  intro d hd
  rcases List.mem_cons.mp hd with rfl | hd
  · exact Or.inl rfl
  · rw [(List.mem_replicate.mp hd).2]
    exact Or.inr rfl

theorem separatedData_numPos (n : Nat) : numPos (separatedData n) = n := by
  simp [separatedData, numPos, isPos, List.countP_cons, List.countP_replicate]

theorem separatedData_numNeg (n : Nat) : numNeg (separatedData n) = 1 := by
  simp [separatedData, numNeg, isNeg, List.countP_cons, List.countP_replicate]

theorem separatedData_separated (n : Nat) :
    ∀ p ∈ separatedData n, ∀ q ∈ separatedData n, p.ground_truth = 1 → q.ground_truth = 0 →
      q.prediction < p.prediction := by
  intro p hp q hq h1 h0
  rcases List.mem_cons.mp hp with rfl | hp
  · exact absurd h1 (by decide)
  · rcases List.mem_cons.mp hq with rfl | hq
    · rw [(List.mem_replicate.mp hp).2]
      decide
    · rw [(List.mem_replicate.mp hq).2] at h0
      exact absurd h0 (by decide)

theorem separatedData_trapezoidSum (f : Nat → Nat) (n : Nat) :
    trapezoidSum f (separatedData n) = f (n + n) := by
  have h1 : posAtOrAbove (separatedData n) 0 = n := by
    simp [separatedData, posAtOrAbove, isPos, List.countP_cons, List.countP_replicate]
  have h2 : posAbove (separatedData n) 0 = n := by
    simp [separatedData, posAbove, isPos, List.countP_cons, List.countP_replicate]
  have h3 : negSum (fun _ => true)
      (fun v => f (posAtOrAbove (separatedData n) v + posAbove (separatedData n) v))
      (List.replicate n (⟨1, 1⟩ : AUCDatum Nat)) = 0 := by
    apply negSum_eq_zero
    intro x hx hn
    rw [(List.mem_replicate.mp hx).2] at hn
    exact absurd hn (by decide)
  unfold trapezoidSum
  rw [show separatedData n = ⟨0, 0⟩ :: List.replicate n ⟨1, 1⟩ from rfl, negSum_cons,
    ← show separatedData n = ⟨0, 0⟩ :: List.replicate n ⟨1, 1⟩ from rfl, h3]
  simp [isNeg, h1, h2]

theorem overflowData_length_lt : overflowData.length < UINT_MOD := by
  rw [overflowData, separatedData_length]
  norm_num [UINT_MOD]

/-- On `overflowData` the 32-bit sum `tp + tp0 = 2 ^ 31 + 2 ^ 31` wraps to 0 at the only
threshold change, and the accumulator of the code stays 0. -/
theorem overflowData_accumOf : accumOf overflowData = 0 := by
  have hlen := overflowData_length_lt
  unfold overflowData at hlen ⊢
  rw [accumOf_eq_trapezoidSum _ (separatedData_binary _) hlen, separatedData_trapezoidSum]
  norm_num [UINT_MOD]

/-- On `overflowData` the scan in unbounded integers ends with `2 * P * N = 2 ^ 32`. -/
theorem overflowData_accumExactOf : accumExactOf overflowData = 2 ^ 32 := by
  have hlen := overflowData_length_lt
  unfold overflowData at hlen ⊢
  have hp := qsort_perm (separatedData (2 ^ 31))
  unfold accumExactOf
  rw [countOnes_eq _ (separatedData_binary _) hlen, ← numPos_perm hp,
    scanExact_eq_trapezoidSum _ ((separatedData_binary _).perm hp.symm) (qsort_sorted _),
    trapezoidSum_perm _ hp, separatedData_trapezoidSum]
  norm_num

theorem overflowData_score : (CalculateAUC overflowData).1 = 0 := by
  have h := score_eq overflowData overflowData_length_lt (separatedData_binary _)
    ⟨⟨0, 0⟩, List.mem_cons_self _ _, rfl⟩
    ⟨⟨1, 1⟩, List.mem_cons_of_mem _ (List.mem_replicate.mpr ⟨by norm_num, rfl⟩), rfl⟩
  rw [h, overflowData_accumOf]
  simp

theorem separatedData_concordantPairs (n : Nat) : concordantPairs (separatedData n) = n := by
  have h := separatedData_trapezoidSum (fun _ => 0) n
  have h2 : posAbove (separatedData n) 0 = n := by
    simp [separatedData, posAbove, isPos, List.countP_cons, List.countP_replicate]
  have h3 : negSum (fun _ => true) (posAbove (separatedData n))
      (List.replicate n (⟨1, 1⟩ : AUCDatum Nat)) = 0 := by
    apply negSum_eq_zero
    intro x hx hn
    rw [(List.mem_replicate.mp hx).2] at hn
    exact absurd hn (by decide)
  rw [concordantPairs_eq,
    show separatedData n = ⟨0, 0⟩ :: List.replicate n ⟨1, 1⟩ from rfl, negSum_cons,
    ← show separatedData n = ⟨0, 0⟩ :: List.replicate n ⟨1, 1⟩ from rfl, h3]
  simp [isNeg, h2]

theorem separatedData_tiedPairs (n : Nat) : tiedPairs (separatedData n) = 0 := by
  have h1 := trapezoidSum_id_eq_pairs (separatedData n)
  rw [separatedData_trapezoidSum, separatedData_concordantPairs] at h1
  simp only [id] at h1
  omega

theorem overflowData_mixed :
    (∃ d ∈ overflowData, d.ground_truth = 0) ∧ (∃ d ∈ overflowData, d.ground_truth = 1) :=
  ⟨⟨⟨0, 0⟩, List.mem_cons_self _ _, rfl⟩,
    ⟨⟨1, 1⟩, List.mem_cons_of_mem _ (List.mem_replicate.mpr ⟨by norm_num, rfl⟩), rfl⟩⟩

end Overflow

/-! ## Exits of `CalculateAUC`, loop counters and bounds -/

section Invariants

variable {α : Type} [LinearOrder α]

/-- The three ways out of `CalculateAUC`, for arbitrary labels. -/
theorem CalculateAUC_exits (pFI : List (AUCDatum α)) :
    (0 = countOnes pFI ∧ CalculateAUC pFI = (-1, pFI)) ∨
    (pFI.length = countOnes pFI ∧ CalculateAUC pFI = (-2, pFI)) ∨
    (PassesChecks pFI ∧ (CalculateAUC pFI).2 = qsort cbCompareAUCDatumPrediction pFI ∧
      0 ≤ (CalculateAUC pFI).1) := by
  by_cases h0 : 0 = countOnes pFI
  · left
    exact ⟨h0, by unfold CalculateAUC; simp only []; rw [if_pos h0]⟩
  · by_cases h1 : pFI.length = countOnes pFI
    · right; left
      exact ⟨h1, by unfold CalculateAUC; simp only []; rw [if_neg h0, if_pos h1]⟩
    · right; right
      refine ⟨⟨h0, h1⟩, ?_, ?_⟩
      · unfold CalculateAUC; simp only []; rw [if_neg h0, if_neg h1]
      · unfold CalculateAUC; simp only []; rw [if_neg h0, if_neg h1]
        positivity

theorem passesChecks_iff (pFI : List (AUCDatum α)) (hb : BinaryLabels pFI)
    (hlen : pFI.length < UINT_MOD) :
    PassesChecks pFI ↔ 1 ≤ numPos pFI ∧ 1 ≤ numNeg pFI := by
  have hsum := numPos_add_numNeg pFI hb
  unfold PassesChecks
  rw [countOnes_eq pFI hb hlen]
  omega

theorem NoWrap.mono {s : ScanState α} {m n : Nat} (hw : NoWrap s n) (hmn : m ≤ n) :
    NoWrap s m := by
  obtain ⟨h1, h2, h3⟩ := hw
  have : UINT_MOD * (s.tn + m) ≤ UINT_MOD * (s.tn + n) := Nat.mul_le_mul_left _ (by omega)
  exact ⟨h1, h2, by omega⟩

theorem stepWith_tn_le (f : Nat → Nat) (s : ScanState α) (d : AUCDatum α) :
    (stepWith f s d).tn ≤ s.tn + (1 - d.ground_truth) := by
  unfold stepWith
  by_cases hc : d.prediction ≠ s.threshold
  · rw [if_pos hc]; dsimp only; omega
  · rw [if_neg hc]

theorem stepWith_tp_le_tp0 (f : Nat → Nat) (s : ScanState α) (d : AUCDatum α)
    (h : s.tp ≤ s.tp0) : (stepWith f s d).tp ≤ (stepWith f s d).tp0 := by
  unfold stepWith
  by_cases hc : d.prediction ≠ s.threshold
  · rw [if_pos hc]; dsimp only; omega
  · rw [if_neg hc]; dsimp only; omega

/-- The counters after the unbounded loop has run over `pre`. -/
theorem foldl_stepWith_counters (f : Nat → Nat) :
    ∀ (pre : List (AUCDatum α)) (s : ScanState α), BinaryLabels pre → s.tp ≤ s.tp0 →
      (pre.foldl (stepWith f) s).tp = s.tp - numPos pre ∧
      (pre.foldl (stepWith f) s).tp ≤ (pre.foldl (stepWith f) s).tp0 ∧
      (pre.foldl (stepWith f) s).tn ≤ s.tn + numNeg pre := by
  intro pre
  induction pre with
  | nil => intro s _ h; simp [numPos, numNeg, h]
  | cons d rest ih =>
    intro s hb h
    obtain ⟨i1, i2, i3⟩ := ih (stepWith f s d) hb.tail (stepWith_tp_le_tp0 f s d h)
    have htn := stepWith_tn_le f s d
    rw [List.foldl_cons]
    refine ⟨?_, i2, ?_⟩
    · rw [i1, stepWith_tp, numPos_cons]
      rcases hb d (List.mem_cons_self _ _) with g | g
      · simp [g]
      · simp [g]; omega
    · rw [numNeg_cons]
      rcases hb d (List.mem_cons_self _ _) with g | g <;> simp [g] at htn ⊢ <;> omega

theorem numPos_take_add_drop (l : List (AUCDatum α)) (i : Nat) :
    numPos (l.take i) + numPos (l.drop i) = numPos l := by
  unfold numPos
  rw [← List.countP_append, List.take_append_drop]

theorem BinaryLabels.take {l : List (AUCDatum α)} (h : BinaryLabels l) (i : Nat) :
    BinaryLabels (l.take i) := fun x hx => h x (List.mem_of_mem_take hx)

/-- The state of the code's loop after the first `i` samples: it is the state of the unbounded
loop with the 32-bit sum, `tp` counts the positives not yet seen, `tp ≤ tp0`, and `tn` is at
most the number of negatives seen. -/
theorem scanLoop_take (l : List (AUCDatum α)) (hb : BinaryLabels l)
    (hlen : l.length < UINT_MOD) (v : α) (i : Nat) :
    (l.take i).foldl scanStep (scanInit (countOnes l) v)
        = (l.take i).foldl (stepWith (fun a => a % UINT_MOD)) (scanInit (numPos l) v) ∧
      ((l.take i).foldl scanStep (scanInit (countOnes l) v)).tp = numPos (l.drop i) ∧
      ((l.take i).foldl scanStep (scanInit (countOnes l) v)).tp
        ≤ ((l.take i).foldl scanStep (scanInit (countOnes l) v)).tp0 ∧
      ((l.take i).foldl scanStep (scanInit (countOnes l) v)).tn ≤ numNeg (l.take i) := by
  have hsplit := numPos_take_add_drop l i
  have hw : NoWrap (scanInit (numPos l) v) (l.take i).length :=
    (noWrap_scanInit (numPos l) l.length v (numPos_le_length l) hlen).mono
      (by rw [List.length_take]; omega)
  have heq := (foldl_scanStep_eq (l.take i) (scanInit (numPos l) v) (hb.take i)
    (by simp only [scanInit]; omega) hw).1
  obtain ⟨c1, c2, c3⟩ := foldl_stepWith_counters (fun a => a % UINT_MOD) (l.take i)
    (scanInit (numPos l) v) (hb.take i) (le_refl _)
  rw [countOnes_eq l hb hlen, heq]
  refine ⟨rfl, ?_, c2, ?_⟩
  · rw [c1]; simp only [scanInit]; omega
  · simpa [scanInit] using c3

theorem stepWith_accum_le (f : Nat → Nat) (s : ScanState α) (d : AUCDatum α) :
    s.accum ≤ (stepWith f s d).accum := by
  unfold stepWith
  by_cases hc : d.prediction ≠ s.threshold
  · rw [if_pos hc]; dsimp only; omega
  · rw [if_neg hc]

/-- The accumulator of the unbounded loop never decreases. -/
theorem foldl_stepWith_accum_le (f : Nat → Nat) :
    ∀ (pre : List (AUCDatum α)) (s : ScanState α), s.accum ≤ (pre.foldl (stepWith f) s).accum := by
  intro pre
  induction pre with
  | nil => intro s; exact le_refl _
  | cons d rest ih =>
    intro s
    rw [List.foldl_cons]
    exact le_trans (stepWith_accum_le f s d) (ih _)

/-- One iteration keeps the bound `accum + 2 * P * (tn + negatives still to come) ≤ 2 * P * N`. -/
theorem stepWith_id_bound (P N : Nat) (s : ScanState α) (d : AUCDatum α)
    (rest : List (AUCDatum α)) (hg : d.ground_truth = 0 ∨ d.ground_truth = 1)
    (h1 : s.tp ≤ s.tp0) (h2 : s.tp0 ≤ P)
    (h3 : s.accum + 2 * P * (s.tn + numNeg (d :: rest)) ≤ 2 * P * N) :
    (stepWith id s d).tp ≤ (stepWith id s d).tp0 ∧ (stepWith id s d).tp0 ≤ P ∧
      (stepWith id s d).accum + 2 * P * ((stepWith id s d).tn + numNeg rest) ≤ 2 * P * N := by
  have hneg : numNeg (d :: rest) = numNeg rest + (1 - d.ground_truth) := by
    rw [numNeg_cons]
    rcases hg with g | g <;> simp [g]
  rw [hneg] at h3
  have hsum : (s.tp + s.tp0) * s.tn ≤ 2 * P * s.tn :=
    Nat.mul_le_mul_right _ (by omega)
  unfold stepWith
  by_cases hc : d.prediction ≠ s.threshold
  · rw [if_pos hc]
    dsimp only [id]
    refine ⟨by omega, by omega, ?_⟩
    have e : 2 * P * (s.tn + (numNeg rest + (1 - d.ground_truth)))
        = 2 * P * s.tn + 2 * P * (0 + (1 - d.ground_truth) + numNeg rest) := by ring
    omega
  · rw [if_neg hc]
    dsimp only
    refine ⟨by omega, h2, ?_⟩
    have e : s.tn + (numNeg rest + (1 - d.ground_truth))
        = s.tn + (1 - d.ground_truth) + numNeg rest := by omega
    rw [e] at h3
    exact h3

theorem foldl_stepWith_id_bound (P N : Nat) :
    ∀ (pre : List (AUCDatum α)) (s : ScanState α) (rest : List (AUCDatum α)),
      BinaryLabels pre → s.tp ≤ s.tp0 → s.tp0 ≤ P →
      s.accum + 2 * P * (s.tn + numNeg (pre ++ rest)) ≤ 2 * P * N →
      (pre.foldl (stepWith id) s).tp0 ≤ P ∧
      (pre.foldl (stepWith id) s).accum
        + 2 * P * ((pre.foldl (stepWith id) s).tn + numNeg rest) ≤ 2 * P * N := by
  intro pre
  induction pre with
  | nil => intro s rest _ _ h2 h3; exact ⟨h2, h3⟩
  | cons d pre ih =>
    intro s rest hb h1 h2 h3
    obtain ⟨j1, j2, j3⟩ := stepWith_id_bound P N s d (pre ++ rest)
      (hb d (List.mem_cons_self _ _)) h1 h2 h3
    rw [List.foldl_cons]
    exact ih _ rest hb.tail j1 j2 j3

theorem wide_enough (P N : Nat) (h : P + N ≤ UINT_MOD) : 2 * P * N < UINT64_MOD := by
  have h1 : 4 * (P * N) ≤ (P + N) * (P + N) := by nlinarith [sq_nonneg ((P : ℤ) - N)]
  have h2 : (P + N) * (P + N) ≤ UINT_MOD * UINT_MOD := Nat.mul_le_mul h h
  norm_num [UINT_MOD, UINT64_MOD] at *
  nlinarith

end Invariants

/-! ## Strictly increasing maps of the predictions -/

section MonotoneMap

variable {α : Type} [LinearOrder α]

variable {β : Type} [LinearOrder β]

theorem mapPrediction_cons (f : α → β) (d : AUCDatum α) (l : List (AUCDatum α)) :
    mapPrediction f (d :: l) = ⟨d.ground_truth, f d.prediction⟩ :: mapPrediction f l := rfl

theorem mapPrediction_length (f : α → β) (l : List (AUCDatum α)) :
    (mapPrediction f l).length = l.length := by
  simp [mapPrediction]

theorem mapPrediction_binary (f : α → β) (l : List (AUCDatum α)) (hb : BinaryLabels l) :
    BinaryLabels (mapPrediction f l) := by
  intro x hx
  obtain ⟨d, hd, rfl⟩ := List.mem_map.mp hx
  exact hb d hd

theorem mapPrediction_numPos (f : α → β) (l : List (AUCDatum α)) :
    numPos (mapPrediction f l) = numPos l := by
  unfold numPos mapPrediction
  rw [List.countP_map]
  rfl

theorem mapPrediction_numNeg (f : α → β) (l : List (AUCDatum α)) :
    numNeg (mapPrediction f l) = numNeg l := by
  unfold numNeg mapPrediction
  rw [List.countP_map]
  rfl

theorem mapPrediction_posAtOrAbove (f : α → β) (hf : StrictMono f) (l : List (AUCDatum α))
    (v : α) : posAtOrAbove (mapPrediction f l) (f v) = posAtOrAbove l v := by
  unfold posAtOrAbove mapPrediction
  rw [List.countP_map]
  apply List.countP_congr
  intro y _
  simp [isPos, hf.le_iff_le]

theorem mapPrediction_posAbove (f : α → β) (hf : StrictMono f) (l : List (AUCDatum α))
    (v : α) : posAbove (mapPrediction f l) (f v) = posAbove l v := by
  unfold posAbove mapPrediction
  rw [List.countP_map]
  apply List.countP_congr
  intro y _
  simp [isPos, hf.lt_iff_lt]

theorem mapPrediction_negSum (f : α → β) (H : β → Nat) (l : List (AUCDatum α)) :
    negSum (fun _ => true) H (mapPrediction f l) = negSum (fun _ => true) (fun v => H (f v)) l := by
  induction l with
  | nil => rfl
  | cons d l ih =>
    rw [mapPrediction_cons, negSum_cons, negSum_cons, ih]
    rfl

/-- The closed form of the scan is unchanged by a strictly increasing map of the predictions. -/
theorem mapPrediction_trapezoidSum (F : Nat → Nat) (f : α → β) (hf : StrictMono f)
    (l : List (AUCDatum α)) : trapezoidSum F (mapPrediction f l) = trapezoidSum F l := by
  unfold trapezoidSum
  rw [mapPrediction_negSum]
  apply negSum_congr _ _ _ _ _ (fun _ _ => rfl)
  intro x _ _ _
  rw [mapPrediction_posAtOrAbove f hf, mapPrediction_posAbove f hf]

end MonotoneMap

/-! ## The runs of tied predictions -/

section Runs

variable {α : Type} [LinearOrder α]

theorem numPos_flatten_cons (g : List (AUCDatum α)) (gs : List (List (AUCDatum α))) :
    numPos (g :: gs).flatten = numPos g + numPos gs.flatten := by
  unfold numPos
  rw [List.flatten_cons, List.countP_append]

/-- Putting a sample at or below `v` in front does not change the sum over the negatives
strictly above `v`. -/
theorem negSum_above_cons (d : AUCDatum α) (L : List (AUCDatum α)) (v : α)
    (hd : d.prediction ≤ v) :
    negSum (fun x => decide (v < x.prediction))
        (fun u => posAtOrAbove (d :: L) u + posAbove (d :: L) u) (d :: L)
      = negSum (fun x => decide (v < x.prediction))
        (fun u => posAtOrAbove L u + posAbove L u) L := by
  rw [negSum_cons]
  have hfil : (isNeg d && decide (v < d.prediction)) = false := by
    simp [not_lt.mpr hd]
  rw [hfil]
  simp only [Bool.false_eq_true, if_false, Nat.zero_add]
  apply negSum_congr _ _ _ _ _ (fun _ _ => rfl)
  intro x _ _ hx
  have hx' : d.prediction < x.prediction := lt_of_le_of_lt hd (by simpa using hx)
  rw [posAtOrAbove_cons_of_lt L hx', posAbove_cons_of_le L (le_of_lt hx')]

theorem negSum_above_eq_all (h : α → Nat) (L : List (AUCDatum α)) (v : α)
    (hall : ∀ x ∈ L, v < x.prediction) :
    negSum (fun x => decide (v < x.prediction)) h L = negSum (fun _ => true) h L :=
  negSum_congr _ _ _ _ _ (fun x hx => by simp [hall x hx]) (fun _ _ _ _ => rfl)

theorem numPos_singleton_add (d : AUCDatum α) (L : List (AUCDatum α)) :
    numPos [d] + numPos L = numPos (d :: L) := by
  simp [numPos, List.countP_cons]; omega

theorem numNeg_singleton_add (d : AUCDatum α) (L : List (AUCDatum α)) :
    numNeg [d] + numNeg L = numNeg (d :: L) := by
  simp [numNeg, List.countP_cons]; omega

/-- The first run of a sorted array holds the samples tied with the first sample, the later
runs those strictly above it, and the later runs sum to the closed form above it. -/
theorem runs_sorted_shape :
    ∀ (l : List (AUCDatum α)) (d : AUCDatum α), SortedByPrediction (d :: l) →
      ∃ g gs, runs (d :: l) = (d :: g) :: gs ∧
        numNeg (d :: g) = negAt (d :: l) d.prediction ∧
        numPos (d :: g) + numPos gs.flatten = numPos (d :: l) ∧
        numPos gs.flatten = posAbove (d :: l) d.prediction ∧
        groupedTrapezoidSum gs
          = negSum (fun x => decide (d.prediction < x.prediction))
              (fun u => posAtOrAbove (d :: l) u + posAbove (d :: l) u) (d :: l) := by
  intro l
  induction l with
  | nil =>
    intro d _
    refine ⟨[], [], rfl, ?_, ?_, ?_, ?_⟩
    · simp [numNeg, negAt, List.countP_cons]
    · simp [numPos]
    · simp [numPos, posAbove, List.countP_cons]
    · rw [negSum_cons]
      simp [groupedTrapezoidSum, negSum]
  | cons e l ih =>
    intro d hs
    have hs' := List.pairwise_cons.mp hs
    obtain ⟨g, gs, hr, i1, i2, i3, i4⟩ := ih e hs'.2
    have hde : d.prediction ≤ e.prediction := hs'.1 e (List.mem_cons_self _ _)
    rcases eq_or_lt_of_le hde with heq | hlt
    · refine ⟨e :: g, gs, ?_, ?_, ?_, ?_, ?_⟩
      · show (match runs (e :: l) with
          | [] => [[d]]
          | [] :: gs => [d] :: gs
          | (e :: g) :: gs =>
            if d.prediction = e.prediction then (d :: e :: g) :: gs
            else [d] :: (e :: g) :: gs) = _
        rw [hr]
        simp only [heq, if_true]
      · rw [← numNeg_singleton_add, i1, ← heq]
        simp [numNeg, negAt, List.countP_cons]
        omega
      · rw [← numPos_singleton_add d (e :: g), ← numPos_singleton_add d (e :: l), ← i2]
        omega
      · rw [i3, heq, posAbove_cons_of_le (e :: l) (le_of_eq heq)]
      · rw [i4, negSum_above_cons d (e :: l) d.prediction (le_refl _), heq]
    · have hall : ∀ x ∈ e :: l, d.prediction < x.prediction := by
        intro x hx
        rcases List.mem_cons.mp hx with rfl | hx
        · exact hlt
        · exact lt_of_lt_of_le hlt ((List.pairwise_cons.mp hs'.2).1 x hx)
      have halle : ∀ x ∈ e :: l, e.prediction ≤ x.prediction := by
        intro x hx
        rcases List.mem_cons.mp hx with rfl | hx
        · exact le_refl _
        · exact (List.pairwise_cons.mp hs'.2).1 x hx
      refine ⟨[], (e :: g) :: gs, ?_, ?_, ?_, ?_, ?_⟩
      · show (match runs (e :: l) with
          | [] => [[d]]
          | [] :: gs => [d] :: gs
          | (e :: g) :: gs =>
            if d.prediction = e.prediction then (d :: e :: g) :: gs
            else [d] :: (e :: g) :: gs) = _
        rw [hr]
        simp only [ne_of_lt hlt, if_false]
      · have hz := negAt_eq_zero (e :: l) hall
        simp only [negAt, numNeg, List.countP_cons] at hz ⊢
        rw [hz]
        simp
      · rw [numPos_flatten_cons, i2, numPos_singleton_add]
      · rw [numPos_flatten_cons, i2, posAbove_cons_of_le (e :: l) (le_refl _),
          posAbove_eq_numPos (e :: l) hall]
      · rw [negSum_above_cons d (e :: l) d.prediction (le_refl _),
          negSum_above_eq_all _ _ _ hall, negSum_split _ e.prediction _ halle,
          posAtOrAbove_eq_numPos _ halle]
        show (numPos ((e :: g) :: gs).flatten + numPos gs.flatten) * numNeg (e :: g)
          + groupedTrapezoidSum gs = _
        rw [numPos_flatten_cons, i1, i2, i3, i4]
        ring

/-- On a sorted array the documented sum over the runs is the closed form of the unbounded
scan. -/
theorem groupedTrapezoidSum_runs (l : List (AUCDatum α)) (hs : SortedByPrediction l) :
    groupedTrapezoidSum (runs l) = trapezoidSum id l := by
  cases l with
  | nil => rfl
  | cons d l =>
    have halle : ∀ x ∈ d :: l, d.prediction ≤ x.prediction := by
      intro x hx
      rcases List.mem_cons.mp hx with rfl | hx
      · exact le_refl _
      · exact (List.pairwise_cons.mp hs).1 x hx
    obtain ⟨g, gs, hr, i1, i2, i3, i4⟩ := runs_sorted_shape l d hs
    rw [hr]
    show (numPos ((d :: g) :: gs).flatten + numPos gs.flatten) * numNeg (d :: g)
      + groupedTrapezoidSum gs = _
    unfold trapezoidSum
    rw [negSum_split _ d.prediction _ halle, posAtOrAbove_eq_numPos _ halle,
      numPos_flatten_cons, i1, i2, i3, i4]
    simp only [id]
    ring

end Runs

/-! ## The documented sum and the scan -/

section GroupedSum

variable {α : Type} [LinearOrder α]

/-- When twice the number of positives fits in 32 bits the closed form of the code is the
closed form of the unbounded scan. -/
theorem trapezoidSum_mod_eq (l : List (AUCDatum α)) (hsmall : 2 * numPos l < UINT_MOD) :
    trapezoidSum (fun a => a % UINT_MOD) l = trapezoidSum id l := by
  unfold trapezoidSum
  apply negSum_congr _ _ _ _ _ (fun _ _ => rfl)
  intro x _ _ _
  have h1 := posAbove_le_numPos l x.prediction
  have h2 := posAtOrAbove_le_numPos l x.prediction
  exact Nat.mod_eq_of_lt (by omega)

/-- In unbounded integers the scan of a sorted array is the documented sum over its runs. -/
theorem scanExact_eq_groupedTrapezoidSum (l : List (AUCDatum α)) (hb : BinaryLabels l)
    (hs : SortedByPrediction l) :
    scanExact (numPos l) l = groupedTrapezoidSum (runs l) := by
  rw [scanExact_eq_trapezoidSum l hb hs, groupedTrapezoidSum_runs l hs]

/-- Where the 32-bit sum cannot wrap (`2 * P < 2 ^ 32`) the scan of the code on a sorted array
is the documented sum over its runs. -/
theorem scan_eq_groupedTrapezoidSum_of_small (l : List (AUCDatum α)) (hb : BinaryLabels l)
    (hs : SortedByPrediction l) (hlen : l.length < UINT_MOD)
    (hsmall : 2 * numPos l < UINT_MOD) :
    scan (countOnes l) l = groupedTrapezoidSum (runs l) := by
  rw [countOnes_eq l hb hlen, scan_eq_trapezoidSum l hb hs hlen, trapezoidSum_mod_eq l hsmall,
    groupedTrapezoidSum_runs l hs]

theorem runs_cons_cons (d e : AUCDatum α) (g : List (AUCDatum α))
    (gs : List (List (AUCDatum α))) (l : List (AUCDatum α)) (h : runs l = (e :: g) :: gs) :
    runs (d :: l)
      = if d.prediction = e.prediction then (d :: e :: g) :: gs else [d] :: (e :: g) :: gs := by
  show (match runs l with
    | [] => [[d]]
    | [] :: gs => [d] :: gs
    | (e :: g) :: gs =>
      if d.prediction = e.prediction then (d :: e :: g) :: gs
      else [d] :: (e :: g) :: gs) = _
  rw [h]

end GroupedSum

/-! ## Flipping the labels -/

section Flip

variable {α : Type} [LinearOrder α]

theorem flipLabels_length (l : List (AUCDatum α)) : (flipLabels l).length = l.length := by
  simp [flipLabels]

theorem flipLabels_binary (l : List (AUCDatum α)) (hb : BinaryLabels l) :
    BinaryLabels (flipLabels l) := by
  intro x hx
  obtain ⟨d, hd, rfl⟩ := List.mem_map.mp hx
  rcases hb d hd with g | g
  · right; simp [flipLabel, g]
  · left; simp [flipLabel, g]

theorem flipLabels_filter_isPos (l : List (AUCDatum α)) (hb : BinaryLabels l) :
    (flipLabels l).filter isPos = (l.filter isNeg).map flipLabel := by
  induction l with
  | nil => rfl
  | cons d l ih =>
    have := ih hb.tail
    unfold flipLabels at this ⊢
    rcases hb d (List.mem_cons_self _ _) with g | g
    · simp [List.filter_cons, isPos, isNeg, flipLabel, g] at this ⊢
      exact this
    · simp [List.filter_cons, isPos, isNeg, flipLabel, g] at this ⊢
      exact this

theorem flipLabels_filter_isNeg (l : List (AUCDatum α)) (hb : BinaryLabels l) :
    (flipLabels l).filter isNeg = (l.filter isPos).map flipLabel := by
  induction l with
  | nil => rfl
  | cons d l ih =>
    have := ih hb.tail
    unfold flipLabels at this ⊢
    rcases hb d (List.mem_cons_self _ _) with g | g
    · simp [List.filter_cons, isPos, isNeg, flipLabel, g] at this ⊢
      exact this
    · simp [List.filter_cons, isPos, isNeg, flipLabel, g] at this ⊢
      exact this

theorem flipLabels_numPos (l : List (AUCDatum α)) (hb : BinaryLabels l) :
    numPos (flipLabels l) = numNeg l := by
  unfold numPos numNeg
  rw [List.countP_eq_length_filter, flipLabels_filter_isPos l hb, List.length_map,
    ← List.countP_eq_length_filter]

theorem flipLabels_numNeg (l : List (AUCDatum α)) (hb : BinaryLabels l) :
    numNeg (flipLabels l) = numPos l := by
  unfold numPos numNeg
  rw [List.countP_eq_length_filter, flipLabels_filter_isNeg l hb, List.length_map,
    ← List.countP_eq_length_filter]

/-- Counting pairs of a product list, one first component at a time. -/
theorem countP_product_left {β γ : Type} (r : β → γ → Bool) (A : List β) (B : List γ) :
    (List.product A B).countP (fun pn => r pn.1 pn.2)
      = (A.map (fun p => B.countP (fun n => r p n))).sum := by
  induction A with
  | nil => simp [List.product]
  | cons a A ih =>
    have h1 : List.product (a :: A) B = B.map (fun b => (a, b)) ++ List.product A B :=
      List.product_cons a A B
    rw [h1, List.countP_append, ih, List.countP_map, List.map_cons, List.sum_cons]
    rfl


theorem countP_trichotomy (v : α) (A : List (AUCDatum α)) :
    A.countP (fun p => decide (v < p.prediction)) + A.countP (fun p => decide (p.prediction = v))
      + A.countP (fun p => decide (p.prediction < v)) = A.length := by
  induction A with
  | nil => rfl
  | cons a A ih =>
    simp only [List.countP_cons, List.length_cons]
    rcases lt_trichotomy v a.prediction with h | rfl | h
    · simp [h, ne_of_gt h, not_lt.mpr (le_of_lt h)]; omega
    · simp; omega
    · simp [h, ne_of_lt h, not_lt.mpr (le_of_lt h)]; omega

/-- Every (positive, negative) pair is concordant, tied or discordant. -/
theorem pairs_total (l : List (AUCDatum α)) :
    concordantPairs l + tiedPairs l + discordantPairs l = numPos l * numNeg l := by
  unfold concordantPairs tiedPairs discordantPairs posNegPairs
  rw [countP_product (fun (p n : AUCDatum α) => decide (n.prediction < p.prediction)),
    countP_product (fun (p n : AUCDatum α) => decide (p.prediction = n.prediction)),
    countP_product (fun (p n : AUCDatum α) => decide (p.prediction < n.prediction)),
    ← List.sum_map_add, ← List.sum_map_add]
  have h : ∀ n ∈ l.filter isNeg,
      (l.filter isPos).countP (fun p => decide (n.prediction < p.prediction))
        + (l.filter isPos).countP (fun p => decide (p.prediction = n.prediction))
        + (l.filter isPos).countP (fun p => decide (p.prediction < n.prediction))
      = (l.filter isPos).length := fun n _ => countP_trichotomy n.prediction _
  rw [List.map_congr_left h, List.map_const', List.sum_replicate, smul_eq_mul]
  unfold numPos numNeg
  rw [List.countP_eq_length_filter, List.countP_eq_length_filter, Nat.mul_comm]

theorem flipLabels_concordantPairs (l : List (AUCDatum α)) (hb : BinaryLabels l) :
    concordantPairs (flipLabels l) = discordantPairs l := by
  unfold concordantPairs discordantPairs posNegPairs
  rw [flipLabels_filter_isPos l hb, flipLabels_filter_isNeg l hb,
    countP_product_left (fun (p n : AUCDatum α) => decide (n.prediction < p.prediction)),
    countP_product (fun (p n : AUCDatum α) => decide (p.prediction < n.prediction)),
    List.map_map]
  apply congrArg
  apply List.map_congr_left
  intro n _
  simp only [Function.comp, List.countP_map]
  rfl

theorem flipLabels_tiedPairs (l : List (AUCDatum α)) (hb : BinaryLabels l) :
    tiedPairs (flipLabels l) = tiedPairs l := by
  unfold tiedPairs posNegPairs
  rw [flipLabels_filter_isPos l hb, flipLabels_filter_isNeg l hb,
    countP_product_left (fun (p n : AUCDatum α) => decide (p.prediction = n.prediction)),
    countP_product (fun (p n : AUCDatum α) => decide (p.prediction = n.prediction)),
    List.map_map]
  apply congrArg
  apply List.map_congr_left
  intro n _
  simp only [Function.comp, List.countP_map]
  apply List.countP_congr
  intro p _
  simp [flipLabel, eq_comm]

/-- Label-flip complement in unbounded integers: the accumulators of a dataset and of its
flipped dataset add up to `2 * P * N`. -/
theorem flipLabels_accumExactOf (pFI : List (AUCDatum α)) (hb : BinaryLabels pFI)
    (hlen : pFI.length < UINT_MOD) :
    accumExactOf (flipLabels pFI) + accumExactOf pFI = 2 * numPos pFI * numNeg pFI := by
  have ht := pairs_total pFI
  rw [accumExactOf_eq_pairs _ (flipLabels_binary pFI hb)
      (by rw [flipLabels_length]; exact hlen),
    accumExactOf_eq_pairs pFI hb hlen, flipLabels_concordantPairs pFI hb,
    flipLabels_tiedPairs pFI hb]
  have e : 2 * numPos pFI * numNeg pFI = 2 * (numPos pFI * numNeg pFI) := by ring
  omega

/-- Label-flip complement of the code where no 32-bit sum can wrap (`2 * P < 2 ^ 32` and
`2 * N < 2 ^ 32`): the accumulator becomes `2 * P * N - accum` and the score `1 - score`. -/
theorem flipLabels_of_small (pFI : List (AUCDatum α)) (hb : BinaryLabels pFI)
    (hlen : pFI.length < UINT_MOD) (h0 : ∃ d ∈ pFI, d.ground_truth = 0)
    (h1 : ∃ d ∈ pFI, d.ground_truth = 1) (hP : 2 * numPos pFI < UINT_MOD)
    (hN : 2 * numNeg pFI < UINT_MOD) :
    accumOf (flipLabels pFI) = 2 * numPos pFI * numNeg pFI - accumOf pFI ∧
      (CalculateAUC (flipLabels pFI)).1 = 1 - (CalculateAUC pFI).1 := by
  have hbf := flipLabels_binary pFI hb
  have hlf : (flipLabels pFI).length < UINT_MOD := by rw [flipLabels_length]; exact hlen
  have hsum := flipLabels_accumExactOf pFI hb hlen
  rw [← accumOf_eq_accumExactOf pFI hb hlen hP,
    ← accumOf_eq_accumExactOf _ hbf hlf (by rw [flipLabels_numPos pFI hb]; exact hN)] at hsum
  refine ⟨by omega, ?_⟩
  have h0f : ∃ d ∈ flipLabels pFI, d.ground_truth = 0 := by
    obtain ⟨d, hd, g⟩ := h1
    exact ⟨flipLabel d, List.mem_map.mpr ⟨d, hd, rfl⟩, by simp [flipLabel, g]⟩
  have h1f : ∃ d ∈ flipLabels pFI, d.ground_truth = 1 := by
    obtain ⟨d, hd, g⟩ := h0
    exact ⟨flipLabel d, List.mem_map.mpr ⟨d, hd, rfl⟩, by simp [flipLabel, g]⟩
  have hPp := numPos_pos_of_mem h1
  have hNp := numNeg_pos_of_mem h0
  have hPq : (numPos pFI : ℚ) ≠ 0 := by exact_mod_cast (Nat.pos_iff_ne_zero.mp hPp)
  have hNq : (numNeg pFI : ℚ) ≠ 0 := by exact_mod_cast (Nat.pos_iff_ne_zero.mp hNp)
  have hsumq : (accumOf (flipLabels pFI) : ℚ) + accumOf pFI = 2 * numPos pFI * numNeg pFI := by
    exact_mod_cast hsum
  rw [score_eq _ hlf hbf h0f h1f, score_eq pFI hlen hb h0 h1, flipLabels_numPos pFI hb,
    flipLabels_numNeg pFI hb]
  have hA : (accumOf (flipLabels pFI) : ℚ) = 2 * numPos pFI * numNeg pFI - accumOf pFI := by
    linarith
  have hden : (2 * (numNeg pFI : ℚ) * numPos pFI) = 2 * numPos pFI * numNeg pFI := by ring
  have hne : (2 * (numPos pFI : ℚ) * numNeg pFI) ≠ 0 :=
    mul_ne_zero (mul_ne_zero two_ne_zero hPq) hNq
  rw [hA, hden, sub_div, div_self hne]

end Flip

/-! ## The overflowing dataset as a sorted array -/

section OverflowRuns

theorem separatedData_sorted (n : Nat) : SortedByPrediction (separatedData n) := by
  unfold SortedByPrediction separatedData
  refine List.pairwise_cons.mpr ⟨?_, ?_⟩
  · intro x hx
    rw [(List.mem_replicate.mp hx).2]
    decide
  · exact List.pairwise_replicate.mpr (Or.inr (le_refl _))

theorem runs_replicate_succ (a : AUCDatum Nat) (n : Nat) :
    runs (List.replicate (n + 1) a) = [List.replicate (n + 1) a] := by
  induction n with
  | zero => rfl
  | succ n ih =>
    have h : runs (List.replicate (n + 1) a) = (a :: List.replicate n a) :: [] := ih
    show runs (a :: List.replicate (n + 1) a) = [a :: List.replicate (n + 1) a]
    rw [runs_cons_cons a a _ _ _ h, if_pos rfl]
    rfl

theorem separatedData_runs (n : Nat) :
    runs (separatedData (n + 1)) = [[⟨0, 0⟩], List.replicate (n + 1) ⟨1, 1⟩] := by
  have h : runs (List.replicate (n + 1) (⟨1, 1⟩ : AUCDatum Nat))
      = (⟨1, 1⟩ :: List.replicate n ⟨1, 1⟩) :: [] := runs_replicate_succ _ n
  show runs (⟨0, 0⟩ :: List.replicate (n + 1) ⟨1, 1⟩) = _
  rw [runs_cons_cons _ _ _ _ _ h, if_neg (by decide)]
  rfl

theorem overflowData_runs :
    runs overflowData = [[⟨0, 0⟩], List.replicate (2 ^ 31) ⟨1, 1⟩] := by
  have h := separatedData_runs (2 ^ 31 - 1)
  have e : 2 ^ 31 - 1 + 1 = 2 ^ 31 := by norm_num
  rw [e] at h
  exact h

theorem overflowData_scan : scan (countOnes overflowData) overflowData = 0 := by
  have hlen := overflowData_length_lt
  unfold overflowData at hlen ⊢
  rw [countOnes_eq _ (separatedData_binary _) hlen,
    scan_eq_trapezoidSum _ (separatedData_binary _) (separatedData_sorted _) hlen,
    separatedData_trapezoidSum]
  norm_num [UINT_MOD]

theorem overflowData_groupedTrapezoidSum :
    groupedTrapezoidSum (runs overflowData) = 2 ^ 32 := by
  unfold overflowData
  rw [groupedTrapezoidSum_runs _ (separatedData_sorted _), separatedData_trapezoidSum]
  norm_num

end OverflowRuns

/-! ## Evaluations on the concrete datasets -/

section Evaluations

theorem doublePlusOne_strictMono : StrictMono doublePlusOne := by
  intro a b h
  unfold doublePlusOne
  omega

theorem sampleData_score : (CalculateAUC sampleData).1 = 1 / 2 := by
  rw [score_eq sampleData (by decide) (by decide) ⟨⟨0, 1⟩, by decide, rfl⟩
    ⟨⟨1, 8⟩, by decide, rfl⟩,
    show accumOf sampleData = 2 by decide, show numPos sampleData = 1 by decide,
    show numNeg sampleData = 2 by decide]
  norm_num

theorem allNegativeData_result : CalculateAUC allNegativeData = (-1, allNegativeData) := by
  unfold CalculateAUC
  simp only []
  rw [if_pos (by decide)]

theorem overflowData_flip_accumOf : accumOf (flipLabels overflowData) = 0 := by
  have hb := separatedData_binary (2 ^ 31)
  have hlen := overflowData_length_lt
  have hex := overflowData_accumExactOf
  unfold overflowData at hlen hex ⊢
  have hbf := flipLabels_binary _ hb
  have hlf : (flipLabels (separatedData (2 ^ 31))).length < UINT_MOD := by
    rw [flipLabels_length]; exact hlen
  have hsum := flipLabels_accumExactOf _ hb hlen
  rw [hex, separatedData_numPos, separatedData_numNeg] at hsum
  rw [accumOf_eq_accumExactOf _ hbf hlf
    (by rw [flipLabels_numPos _ hb, separatedData_numNeg]; norm_num [UINT_MOD])]
  omega

theorem overflowData_flip_score : (CalculateAUC (flipLabels overflowData)).1 = 0 := by
  have hb := separatedData_binary (2 ^ 31)
  have hlen := overflowData_length_lt
  have hacc := overflowData_flip_accumOf
  unfold overflowData at hlen hacc ⊢
  have h := score_eq (flipLabels (separatedData (2 ^ 31)))
    (by rw [flipLabels_length]; exact hlen) (flipLabels_binary _ hb)
    ⟨flipLabel ⟨1, 1⟩, List.mem_map.mpr ⟨⟨1, 1⟩,
      List.mem_cons_of_mem _ (List.mem_replicate.mpr ⟨by norm_num, rfl⟩), rfl⟩, rfl⟩
    ⟨flipLabel ⟨0, 0⟩, List.mem_map.mpr ⟨⟨0, 0⟩, List.mem_cons_self _ _, rfl⟩, rfl⟩
  rw [h, hacc]
  simp

end Evaluations

/-! ## Line 119 in IEEE double arithmetic -/

section Double

variable {α : Type} [LinearOrder α]

theorem int_log_eq (q : ℚ) (e : ℤ) (h1 : (2 : ℚ) ^ e ≤ q) (h2 : q < (2 : ℚ) ^ (e + 1)) :
    Int.log 2 q = e := by
  have hq : 0 < q := lt_of_lt_of_le (by positivity) h1
  have a : e ≤ Int.log 2 q := (Int.zpow_le_iff_le_log (by norm_num) hq).mp (by exact_mod_cast h1)
  have b : Int.log 2 q < e + 1 := (Int.lt_zpow_iff_log_lt (by norm_num) hq).mp (by exact_mod_cast h2)
  omega

theorem roundHalfEven_of_lt (q : ℚ) (M : ℤ) (h1 : (M : ℚ) - 1 / 2 < q) (h2 : q < M + 1 / 2) :
    roundHalfEven q = M := by
  unfold roundHalfEven
  by_cases hq : (M : ℚ) ≤ q
  · have hf : ⌊q⌋ = M := Int.floor_eq_iff.mpr ⟨hq, by linarith⟩
    rw [hf, if_pos (by linarith)]
  · have hf : ⌊q⌋ = M - 1 := Int.floor_eq_iff.mpr ⟨by push_cast; linarith, by push_cast; linarith⟩
    rw [hf, if_neg (by push_cast; linarith), if_pos (by push_cast; linarith)]
    omega

theorem roundHalfEven_intCast (M : ℤ) : roundHalfEven (M : ℚ) = M :=
  roundHalfEven_of_lt _ M (by linarith) (by linarith)

/-- Evaluation of the rounding when the binade `e` and the nearest integer `M` are given. -/
theorem roundDouble_eval (q : ℚ) (e M : ℤ) (hlo : (2 : ℚ) ^ e ≤ q) (hhi : q < (2 : ℚ) ^ (e + 1))
    (h1 : (M : ℚ) - 1 / 2 < q / (2 : ℚ) ^ (e - 52)) (h2 : q / (2 : ℚ) ^ (e - 52) < M + 1 / 2) :
    roundDouble q = M * (2 : ℚ) ^ (e - 52) := by
  have hq : 0 < q := lt_of_lt_of_le (by positivity) hlo
  unfold roundDouble
  rw [if_neg (not_le.mpr hq), int_log_eq q e hlo hhi, roundHalfEven_of_lt _ M h1 h2]


theorem roundHalfEven_tie_odd (q : ℚ) (f : ℤ) (h : q = (f : ℚ) + 1 / 2) (hodd : f % 2 = 1) :
    roundHalfEven q = f + 1 := by
  have hf : ⌊q⌋ = f := Int.floor_eq_iff.mpr ⟨by linarith, by linarith⟩
  unfold roundHalfEven
  rw [hf, if_neg (by linarith), if_neg (by linarith), if_neg (by omega)]

theorem roundHalfEven_tie_even (q : ℚ) (f : ℤ) (h : q = (f : ℚ) + 1 / 2) (heven : f % 2 = 0) :
    roundHalfEven q = f := by
  have hf : ⌊q⌋ = f := Int.floor_eq_iff.mpr ⟨by linarith, by linarith⟩
  unfold roundHalfEven
  rw [hf, if_neg (by linarith), if_neg (by linarith), if_pos heven]

/-- Evaluation of the rounding at a tie above an odd integer `f`: the even neighbour `f + 1`
is taken. -/
theorem roundDouble_eval_tie_odd (q : ℚ) (e f : ℤ) (hlo : (2 : ℚ) ^ e ≤ q)
    (hhi : q < (2 : ℚ) ^ (e + 1)) (h : q / (2 : ℚ) ^ (e - 52) = (f : ℚ) + 1 / 2)
    (hodd : f % 2 = 1) : roundDouble q = ((f + 1 : ℤ) : ℚ) * (2 : ℚ) ^ (e - 52) := by
  have hq : 0 < q := lt_of_lt_of_le (by positivity) hlo
  unfold roundDouble
  rw [if_neg (not_le.mpr hq), int_log_eq q e hlo hhi, roundHalfEven_tie_odd _ f h hodd]

/-- A value `m * 2 ^ k` with `m < 2 ^ 53` is a double: rounding leaves it unchanged. -/
theorem roundDouble_exact (m : ℕ) (k : ℤ) (hm : m < 2 ^ 53) :
    roundDouble ((m : ℚ) * (2 : ℚ) ^ k) = (m : ℚ) * (2 : ℚ) ^ k := by
  rcases Nat.eq_zero_or_pos m with h0 | hpos
  · subst h0
    simp [roundDouble]
  · have hL1 : 2 ^ Nat.log 2 m ≤ m := Nat.pow_log_le_self 2 (Nat.pos_iff_ne_zero.mp hpos)
    have hL2 : m < 2 ^ (Nat.log 2 m + 1) := Nat.lt_pow_succ_log_self (by norm_num) m
    have hL : Nat.log 2 m < 53 :=
      (Nat.pow_lt_pow_iff_right (by norm_num : 1 < 2)).mp (lt_of_le_of_lt hL1 hm)
    obtain ⟨t, ht⟩ : ∃ t : ℕ, Nat.log 2 m + t = 52 := ⟨52 - Nat.log 2 m, by omega⟩
    generalize Nat.log 2 m = L at hL1 hL2 hL ht
    have h2k : (0 : ℚ) < (2 : ℚ) ^ k := by positivity
    have hlo : (2 : ℚ) ^ ((L : ℤ) + k) ≤ (m : ℚ) * (2 : ℚ) ^ k := by
      rw [zpow_add₀ (two_ne_zero), zpow_natCast]
      exact mul_le_mul_of_nonneg_right (by exact_mod_cast hL1) (le_of_lt h2k)
    have hhi : (m : ℚ) * (2 : ℚ) ^ k < (2 : ℚ) ^ ((L : ℤ) + k + 1) := by
      rw [show (L : ℤ) + k + 1 = ((L + 1 : ℕ) : ℤ) + k by push_cast; ring,
        zpow_add₀ (two_ne_zero), zpow_natCast]
      exact mul_lt_mul_of_pos_right (by exact_mod_cast hL2) h2k
    have he : (L : ℤ) + k - 52 = k - (t : ℤ) := by omega
    have hdiv : (m : ℚ) * (2 : ℚ) ^ k / (2 : ℚ) ^ ((L : ℤ) + k - 52)
        = ((m * 2 ^ t : ℕ) : ℤ) := by
      rw [he, zpow_sub₀ (two_ne_zero), zpow_natCast]
      push_cast
      field_simp
      ring
    rw [roundDouble_eval _ ((L : ℤ) + k) ((m * 2 ^ t : ℕ) : ℤ) hlo hhi
      (by rw [hdiv]; linarith) (by rw [hdiv]; linarith), he, zpow_sub₀ (two_ne_zero),
      zpow_natCast]
    push_cast
    field_simp
    ring

theorem roundDouble_natCast (n : ℕ) (hn : n < 2 ^ 53) : roundDouble (n : ℚ) = n := by
  have h := roundDouble_exact n 0 hn
  simpa using h

/-- When `P * N ≤ 2 ^ 53` every operation of line 119 on the accumulator `P * N` is exact and
the result is one half. -/
theorem normalizeDouble_tied (P N : ℕ) (hP : 0 < P) (hN : 0 < N) (hP32 : P < 2 ^ 32)
    (hN32 : N < 2 ^ 32) (hPN : P * N ≤ 2 ^ 53) : normalizeDouble (P * N) P N = 1 / 2 := by
  have hPq : (P : ℚ) ≠ 0 := by exact_mod_cast (Nat.pos_iff_ne_zero.mp hP)
  have hNq : (N : ℚ) ≠ 0 := by exact_mod_cast (Nat.pos_iff_ne_zero.mp hN)
  have hrP : roundDouble (P : ℚ) = P := roundDouble_natCast P (by omega)
  have hrN : roundDouble (N : ℚ) = N := roundDouble_natCast N (by omega)
  have hra : roundDouble ((P * N : ℕ) : ℚ) = (P * N : ℕ) := by
    rcases Nat.lt_or_ge (P * N) (2 ^ 53) with h | h
    · exact roundDouble_natCast _ h
    · have e : P * N = 2 ^ 53 := le_antisymm hPN h
      have h1 := roundDouble_exact 1 53 (by norm_num)
      rw [e]
      norm_num at h1 ⊢
      exact h1
  have hhalf : roundDouble ((1 / 2 : ℚ) * ((P * N : ℕ) : ℚ)) = (1 / 2 : ℚ) * ((P * N : ℕ) : ℚ) := by
    rcases Nat.lt_or_ge (P * N) (2 ^ 53) with h | h
    · have h1 := roundDouble_exact (P * N) (-1) h
      have e : ((P * N : ℕ) : ℚ) * (2 : ℚ) ^ (-1 : ℤ) = (1 / 2 : ℚ) * ((P * N : ℕ) : ℚ) := by
        rw [zpow_neg_one]; ring
      rw [e] at h1
      exact h1
    · have e : P * N = 2 ^ 53 := le_antisymm hPN h
      have h1 := roundDouble_exact 1 52 (by norm_num)
      rw [e]
      norm_num at h1 ⊢
      exact h1
  have hd1 : roundDouble ((1 / 2 : ℚ) * ((P * N : ℕ) : ℚ) / (P : ℚ)) = (1 / 2 : ℚ) * N := by
    have e : (1 / 2 : ℚ) * ((P * N : ℕ) : ℚ) / (P : ℚ) = (N : ℚ) * (2 : ℚ) ^ (-1 : ℤ) := by
      rw [zpow_neg_one]; push_cast; field_simp; ring
    rw [e, roundDouble_exact N (-1) (by omega), zpow_neg_one]
    ring
  have hd2 : roundDouble ((1 / 2 : ℚ) * N / (N : ℚ)) = 1 / 2 := by
    have e : (1 / 2 : ℚ) * N / (N : ℚ) = ((1 : ℕ) : ℚ) * (2 : ℚ) ^ (-1 : ℤ) := by
      rw [zpow_neg_one]; field_simp; ring
    rw [e, roundDouble_exact 1 (-1) (by norm_num), zpow_neg_one]
    norm_num
  unfold normalizeDouble
  rw [hra, hhalf, hrP, hd1, hrN, hd2]

theorem normalizeDouble_separated_large :
    normalizeDouble (2 * 94906219 * 94906313) 94906219 94906313
      = 4503599627370497 / 4503599627370496 := by
  have hP : roundDouble ((94906219 : ℕ) : ℚ) = (94906219 : ℕ) :=
    roundDouble_natCast _ (by norm_num)
  have hN : roundDouble ((94906313 : ℕ) : ℚ) = (94906313 : ℕ) :=
    roundDouble_natCast _ (by norm_num)
  have ha : roundDouble ((2 * 94906219 * 94906313 : ℕ) : ℚ) = 18014398652121096 := by
    rw [roundDouble_eval_tie_odd _ 54 4503599663030273 (by norm_num) (by norm_num)
      (by norm_num) (by norm_num)]
    norm_num
  have hh : roundDouble ((1 / 2 : ℚ) * 18014398652121096) = 9007199326060548 := by
    have h := roundDouble_exact 4503599663030274 1 (by norm_num)
    norm_num at h ⊢
    exact h
  have hd1 : roundDouble ((9007199326060548 : ℚ) / ((94906219 : ℕ) : ℚ))
      = 6369054851858433 / 67108864 := by
    rw [roundDouble_eval _ 26 6369054851858433 (by norm_num) (by norm_num) (by norm_num)
      (by norm_num)]
    norm_num
  have hd2 : roundDouble ((6369054851858433 / 67108864 : ℚ) / ((94906313 : ℕ) : ℚ))
      = 4503599627370497 / 4503599627370496 := by
    rw [roundDouble_eval _ 0 4503599627370497 (by norm_num) (by norm_num) (by norm_num)
      (by norm_num)]
    norm_num
  unfold normalizeDouble
  rw [ha, hh, hP, hd1, hN, hd2]

theorem normalizeDouble_tied_large :
    normalizeDouble (94906219 * 94906313) 94906219 94906313
      = 4503599627370497 / 9007199254740992 := by
  have hP : roundDouble ((94906219 : ℕ) : ℚ) = (94906219 : ℕ) :=
    roundDouble_natCast _ (by norm_num)
  have hN : roundDouble ((94906313 : ℕ) : ℚ) = (94906313 : ℕ) :=
    roundDouble_natCast _ (by norm_num)
  have ha : roundDouble ((94906219 * 94906313 : ℕ) : ℚ) = 9007199326060548 := by
    rw [roundDouble_eval_tie_odd _ 53 4503599663030273 (by norm_num) (by norm_num)
      (by norm_num) (by norm_num)]
    norm_num
  have hh : roundDouble ((1 / 2 : ℚ) * 9007199326060548) = 4503599663030274 := by
    have h := roundDouble_exact 4503599663030274 0 (by norm_num)
    norm_num at h ⊢
    exact h
  have hd1 : roundDouble ((4503599663030274 : ℚ) / ((94906219 : ℕ) : ℚ))
      = 6369054851858433 / 134217728 := by
    rw [roundDouble_eval _ 25 6369054851858433 (by norm_num) (by norm_num) (by norm_num)
      (by norm_num)]
    norm_num
  have hd2 : roundDouble ((6369054851858433 / 134217728 : ℚ) / ((94906313 : ℕ) : ℚ))
      = 4503599627370497 / 9007199254740992 := by
    rw [roundDouble_eval _ (-1) 4503599627370497 (by norm_num) (by norm_num) (by norm_num)
      (by norm_num)]
    norm_num
  unfold normalizeDouble
  rw [ha, hh, hP, hd1, hN, hd2]

/-- On a dataset with mixed labels the returned double is line 119 applied to the accumulator,
`P` and `N`. -/
theorem CalculateAUCDouble_mixed (pFI : List (AUCDatum α)) (hlen : pFI.length < UINT_MOD)
    (hb : BinaryLabels pFI) (h0 : ∃ d ∈ pFI, d.ground_truth = 0)
    (h1 : ∃ d ∈ pFI, d.ground_truth = 1) :
    (CalculateAUCDouble pFI).1 = normalizeDouble (accumOf pFI) (numPos pFI) (numNeg pFI) := by
  have hsum := numPos_add_numNeg pFI hb
  have hones := countOnes_eq pFI hb hlen
  have hP := numPos_pos_of_mem h1
  have hN := numNeg_pos_of_mem h0
  have hNeq : (pFI.length + UINT_MOD - numPos pFI) % UINT_MOD = numNeg pFI := by
    rw [show pFI.length + UINT_MOD - numPos pFI = numNeg pFI + UINT_MOD by omega,
      Nat.add_mod_right, Nat.mod_eq_of_lt (by omega)]
  unfold CalculateAUCDouble accumOf
  simp only [hones]
  rw [if_neg (by omega), if_neg (by omega), hNeq]

/-- With all predictions tied the accumulator of the code is `P * N`. -/
theorem accumOf_all_tied (pFI : List (AUCDatum α)) (hlen : pFI.length < UINT_MOD)
    (hb : BinaryLabels pFI) (v : α) (htie : ∀ d ∈ pFI, d.prediction = v) :
    accumOf pFI = numPos pFI * numNeg pFI := by
  rw [accumOf_eq_trapezoidSum pFI hb hlen]
  unfold trapezoidSum
  have hconst : negSum (fun _ => true)
        (fun u => (posAtOrAbove pFI u + posAbove pFI u) % UINT_MOD) pFI
      = negSum (fun _ => true) (fun _ => numPos pFI) pFI := by
    apply negSum_congr _ _ _ _ _ (fun _ _ => rfl)
    intro x hx _ _
    have e1 : posAtOrAbove pFI x.prediction = numPos pFI :=
      posAtOrAbove_eq_numPos pFI (fun y hy => by rw [htie x hx, htie y hy])
    have e2 : posAbove pFI x.prediction = 0 := by
      unfold posAbove
      rw [List.countP_eq_zero]
      intro y hy
      simp [htie x hx, htie y hy]
    rw [e1, e2, Nat.add_zero]
    exact Nat.mod_eq_of_lt (lt_of_le_of_lt (numPos_le_length pFI) hlen)
  rw [hconst, negSum_const, Nat.mul_comm]

/-- With all predictions tied at `v` the loop of the code only counts: it ends with
`tn = N`, `tp = 0`, `tp0 = P` and `accum = 0`. -/
theorem scanLoop_all_tied (pFI : List (AUCDatum α)) (hlen : pFI.length < UINT_MOD)
    (hb : BinaryLabels pFI) (v : α) (htie : ∀ d ∈ pFI, d.prediction = v) :
    scanLoop (countOnes pFI) v (qsort cbCompareAUCDatumPrediction pFI)
      = { tn := numNeg pFI, tp := 0, tp0 := numPos pFI, accum := 0, threshold := v } := by
  have hperm := qsort_perm pFI
  have hw := noWrap_scanInit (numPos pFI) (qsort cbCompareAUCDatumPrediction pFI).length v
    (by rw [hperm.length_eq]; exact numPos_le_length pFI) (by rw [hperm.length_eq]; exact hlen)
  have hbs : BinaryLabels (qsort cbCompareAUCDatumPrediction pFI) := hb.perm hperm.symm
  unfold scanLoop
  rw [countOnes_eq pFI hb hlen,
    (foldl_scanStep_eq _ _ hbs (by rw [numPos_perm hperm]; exact le_refl _) hw).1,
    foldl_stepWith_tied _ _ _ hbs (fun d hd => htie d (hperm.mem_iff.mp hd)),
    numPos_perm hperm, numNeg_perm hperm]
  simp [scanInit]

theorem twoBlockData_length (N P u w : Nat) : (twoBlockData N P u w).length = N + P := by
  simp [twoBlockData]

theorem twoBlockData_binary (N P u w : Nat) : BinaryLabels (twoBlockData N P u w) := by
  intro d hd
  rcases List.mem_append.mp hd with h | h
  · rw [(List.mem_replicate.mp h).2]; exact Or.inl rfl
  · rw [(List.mem_replicate.mp h).2]; exact Or.inr rfl

theorem twoBlockData_numPos (N P u w : Nat) : numPos (twoBlockData N P u w) = P := by
  simp [twoBlockData, numPos, isPos, List.countP_append, List.countP_replicate]

theorem twoBlockData_numNeg (N P u w : Nat) : numNeg (twoBlockData N P u w) = N := by
  simp [twoBlockData, numNeg, isNeg, List.countP_append, List.countP_replicate]

theorem twoBlockData_mixed (N P u w : Nat) (hN : 0 < N) (hP : 0 < P) :
    (∃ d ∈ twoBlockData N P u w, d.ground_truth = 0) ∧
      (∃ d ∈ twoBlockData N P u w, d.ground_truth = 1) :=
  ⟨⟨⟨0, u⟩, List.mem_append.mpr (Or.inl (List.mem_replicate.mpr ⟨by omega, rfl⟩)), rfl⟩,
    ⟨⟨1, w⟩, List.mem_append.mpr (Or.inr (List.mem_replicate.mpr ⟨by omega, rfl⟩)), rfl⟩⟩

theorem twoBlockData_separated (N P u w : Nat) (huw : u < w) :
    ∀ p ∈ twoBlockData N P u w, ∀ n ∈ twoBlockData N P u w,
      p.ground_truth = 1 → n.ground_truth = 0 → n.prediction < p.prediction := by
  intro p hp n hn h1 h0
  rcases List.mem_append.mp hp with h | h
  · rw [(List.mem_replicate.mp h).2] at h1; exact absurd h1 (by simp)
  · rcases List.mem_append.mp hn with h' | h'
    · rw [(List.mem_replicate.mp h).2, (List.mem_replicate.mp h').2]; exact huw
    · rw [(List.mem_replicate.mp h').2] at h0; exact absurd h0 (by simp)

theorem twoBlockData_tied (N P u : Nat) : ∀ d ∈ twoBlockData N P u u, d.prediction = u := by
  intro d hd
  rcases List.mem_append.mp hd with h | h
  · rw [(List.mem_replicate.mp h).2]
  · rw [(List.mem_replicate.mp h).2]

theorem largeSeparatedData_length_lt : largeSeparatedData.length < UINT_MOD := by
  rw [largeSeparatedData, twoBlockData_length]
  norm_num [UINT_MOD]

theorem largeTiedData_length_lt : largeTiedData.length < UINT_MOD := by
  rw [largeTiedData, twoBlockData_length]
  norm_num [UINT_MOD]

theorem largeSeparatedData_accumOf :
    accumOf largeSeparatedData = 2 * 94906219 * 94906313 := by
  have hlen := largeSeparatedData_length_lt
  unfold largeSeparatedData at hlen ⊢
  have hm := twoBlockData_mixed 94906313 94906219 0 1 (by norm_num) (by norm_num)
  have h := (separated_of_small _ hlen (twoBlockData_binary _ _ _ _) hm.1 hm.2
    (by rw [twoBlockData_numPos]; norm_num [UINT_MOD])
    (twoBlockData_separated _ _ 0 1 (by norm_num))).1
  rw [h, twoBlockData_numPos, twoBlockData_numNeg]

theorem largeSeparatedData_double :
    (CalculateAUCDouble largeSeparatedData).1 = 4503599627370497 / 4503599627370496 := by
  have hlen := largeSeparatedData_length_lt
  have hacc := largeSeparatedData_accumOf
  unfold largeSeparatedData at hlen hacc ⊢
  have hm := twoBlockData_mixed 94906313 94906219 0 1 (by norm_num) (by norm_num)
  rw [CalculateAUCDouble_mixed _ hlen (twoBlockData_binary _ _ _ _) hm.1 hm.2, hacc,
    twoBlockData_numPos, twoBlockData_numNeg]
  exact normalizeDouble_separated_large

theorem largeTiedData_accumOf : accumOf largeTiedData = 94906219 * 94906313 := by
  have hlen := largeTiedData_length_lt
  unfold largeTiedData at hlen ⊢
  rw [accumOf_all_tied _ hlen (twoBlockData_binary _ _ _ _) 0 (twoBlockData_tied _ _ 0),
    twoBlockData_numPos, twoBlockData_numNeg]

theorem largeTiedData_double :
    (CalculateAUCDouble largeTiedData).1 = 4503599627370497 / 9007199254740992 := by
  have hlen := largeTiedData_length_lt
  have hacc := largeTiedData_accumOf
  unfold largeTiedData at hlen hacc ⊢
  have hm := twoBlockData_mixed 94906313 94906219 0 0 (by norm_num) (by norm_num)
  rw [CalculateAUCDouble_mixed _ hlen (twoBlockData_binary _ _ _ _) hm.1 hm.2, hacc,
    twoBlockData_numPos, twoBlockData_numNeg]
  exact normalizeDouble_tied_large

end Double

/-! ## The claims -/

section Claims

variable {α : Type} [LinearOrder α]

/-- **C1 (defect of the code).** The dataset `overflowData` has fewer than `2 ^ 32` samples,
labels in {0,1} and mixed labels; its pair counts are `C = 2 ^ 31` and `T = 0`, so
`2 * C + T = 2 ^ 32`, but the accumulator computed by `CalculateAUC` is 0 and the returned
score is 0 instead of `(C + T / 2) / (P * N) = 1`. -/
theorem C1_accum_differs_from_pair_count :
    overflowData.length < UINT_MOD ∧ BinaryLabels overflowData ∧
    (∃ d ∈ overflowData, d.ground_truth = 0) ∧ (∃ d ∈ overflowData, d.ground_truth = 1) ∧
    concordantPairs overflowData = 2 ^ 31 ∧ tiedPairs overflowData = 0 ∧
    accumOf overflowData = 0 ∧
    accumOf overflowData ≠ 2 * concordantPairs overflowData + tiedPairs overflowData ∧
    (CalculateAUC overflowData).1 = 0 ∧
    ((concordantPairs overflowData : ℚ) + (tiedPairs overflowData : ℚ) / 2)
      / (numPos overflowData * numNeg overflowData) = 1 := by
  have hC : concordantPairs overflowData = 2 ^ 31 := separatedData_concordantPairs _
  have hT : tiedPairs overflowData = 0 := separatedData_tiedPairs _
  have hP : numPos overflowData = 2 ^ 31 := separatedData_numPos _
  have hN : numNeg overflowData = 1 := separatedData_numNeg _
  refine ⟨overflowData_length_lt, separatedData_binary _, overflowData_mixed.1,
    overflowData_mixed.2, hC, hT, overflowData_accumOf, ?_, overflowData_score, ?_⟩
  · rw [overflowData_accumOf, hC, hT]
    norm_num
  · rw [hC, hT, hP, hN]
    norm_num

/-- **C2 (defect of the code).** The dataset `largeSeparatedData` has labels in {0,1}, mixed
labels and `189812532 < 2 ^ 32` samples, `P = 94906219`, `N = 94906313`.  Its accumulator is
`2 * P * N`, within the bound `accum ≤ 2 * P * N`, but line 119 evaluated in IEEE doubles
rounds `(double)accum` and both quotients and returns `1 + 2 ^ (-52)`, a value above 1. -/
theorem C2_double_exceeds_one :
    largeSeparatedData.length < UINT_MOD ∧ BinaryLabels largeSeparatedData ∧
    (∃ d ∈ largeSeparatedData, d.ground_truth = 0) ∧
    (∃ d ∈ largeSeparatedData, d.ground_truth = 1) ∧
    numPos largeSeparatedData = 94906219 ∧ numNeg largeSeparatedData = 94906313 ∧
    accumOf largeSeparatedData = 2 * numPos largeSeparatedData * numNeg largeSeparatedData ∧
    (CalculateAUCDouble largeSeparatedData).1 = 1 + 1 / 2 ^ 52 ∧
    1 < (CalculateAUCDouble largeSeparatedData).1 := by
  have hP : numPos largeSeparatedData = 94906219 := twoBlockData_numPos _ _ _ _
  have hN : numNeg largeSeparatedData = 94906313 := twoBlockData_numNeg _ _ _ _
  have hm := twoBlockData_mixed 94906313 94906219 0 1 (by norm_num) (by norm_num)
  refine ⟨largeSeparatedData_length_lt, twoBlockData_binary _ _ _ _, hm.1, hm.2, hP, hN, ?_,
    ?_, ?_⟩
  · rw [largeSeparatedData_accumOf, hP, hN]
  · rw [largeSeparatedData_double]; norm_num
  · rw [largeSeparatedData_double]; norm_num

/-- **C4 (defect of the code).** In the dataset `overflowData` (fewer than `2 ^ 32` samples,
labels in {0,1}, mixed labels) every positive's prediction is strictly greater than every
negative's, and `2 * P * N = 2 ^ 32`; yet `CalculateAUC` ends with the accumulator 0 and
returns 0, not 1. -/
theorem C4_separated_scores_zero :
    overflowData.length < UINT_MOD ∧ BinaryLabels overflowData ∧
    (∃ d ∈ overflowData, d.ground_truth = 0) ∧ (∃ d ∈ overflowData, d.ground_truth = 1) ∧
    (∀ p ∈ overflowData, ∀ n ∈ overflowData, p.ground_truth = 1 → n.ground_truth = 0 →
      n.prediction < p.prediction) ∧
    2 * numPos overflowData * numNeg overflowData = 2 ^ 32 ∧
    accumOf overflowData = 0 ∧ (CalculateAUC overflowData).1 = 0 ∧
    (CalculateAUC overflowData).1 ≠ 1 := by
  have hP : numPos overflowData = 2 ^ 31 := separatedData_numPos _
  have hN : numNeg overflowData = 1 := separatedData_numNeg _
  refine ⟨overflowData_length_lt, separatedData_binary _, overflowData_mixed.1,
    overflowData_mixed.2, separatedData_separated _, ?_, overflowData_accumOf,
    overflowData_score, ?_⟩
  · rw [hP, hN]
    norm_num
  · rw [overflowData_score]
    norm_num

/-- **C5.** For every dataset with labels in {0,1}, at least one positive and one negative, in
which every positive's prediction is strictly less than every negative's prediction,
`CalculateAUC` returns exactly 0 and the accumulator is 0. -/
theorem C5_perfect_inversion (pFI : List (AUCDatum α)) (hlen : pFI.length < UINT_MOD)
    (hb : BinaryLabels pFI) (h0 : ∃ d ∈ pFI, d.ground_truth = 0)
    (h1 : ∃ d ∈ pFI, d.ground_truth = 1)
    (hinv : ∀ p ∈ pFI, ∀ n ∈ pFI, p.ground_truth = 1 → n.ground_truth = 0 →
      p.prediction < n.prediction) :
    (CalculateAUC pFI).1 = 0 ∧ accumOf pFI = 0 := by
  have hacc : accumOf pFI = 0 := by
    rw [accumOf_eq_trapezoidSum pFI hb hlen]
    unfold trapezoidSum
    apply negSum_eq_zero
    intro x hx hn _
    have hxn : x.ground_truth = 0 := by simpa [isNeg] using hn
    have e1 : posAtOrAbove pFI x.prediction = 0 := by
      unfold posAtOrAbove
      rw [List.countP_eq_zero]
      intro y hy
      simp only [Bool.and_eq_true, decide_eq_true_eq, isPos, not_and, not_le]
      intro hy1
      exact hinv y hy x hx hy1 hxn
    have e2 : posAbove pFI x.prediction = 0 := by
      have := posAbove_le_numPos pFI x.prediction
      unfold posAbove
      rw [List.countP_eq_zero]
      intro y hy
      simp only [Bool.and_eq_true, decide_eq_true_eq, isPos, not_and, not_lt]
      intro hy1
      exact le_of_lt (hinv y hy x hx hy1 hxn)
    rw [e1, e2]
    rfl
  refine ⟨?_, hacc⟩
  rw [score_eq pFI hlen hb h0 h1, hacc]
  simp

/-- The theorem of C5 at `invertedData`. -/
theorem C5_witness :
    invertedData.length < UINT_MOD ∧ BinaryLabels invertedData ∧
    (∃ d ∈ invertedData, d.ground_truth = 0) ∧ (∃ d ∈ invertedData, d.ground_truth = 1) ∧
    (∀ p ∈ invertedData, ∀ n ∈ invertedData, p.ground_truth = 1 → n.ground_truth = 0 →
      p.prediction < n.prediction) ∧
    (CalculateAUC invertedData).1 = 0 ∧ accumOf invertedData = 0 :=
  ⟨by decide, by decide, ⟨⟨0, 5⟩, by decide, rfl⟩, ⟨⟨1, 2⟩, by decide, rfl⟩, by decide,
    C5_perfect_inversion invertedData (by decide) (by decide) ⟨⟨0, 5⟩, by decide, rfl⟩
      ⟨⟨1, 2⟩, by decide, rfl⟩ (by decide)⟩

/-- **C6 (amended).** For every dataset with labels in {0,1}, at least one positive and one
negative, in which all predictions equal one value `v`: the loop of the code ends with
`accum = 0`, `tp0 = P`, `tn = N` (no threshold change), the flush gives `accum = P * N`, and
when `P * N ≤ 2 ^ 53` the double returned by line 119 is exactly 1/2. -/
theorem C6_all_tied_amended (pFI : List (AUCDatum α)) (hlen : pFI.length < UINT_MOD)
    (hb : BinaryLabels pFI) (h0 : ∃ d ∈ pFI, d.ground_truth = 0)
    (h1 : ∃ d ∈ pFI, d.ground_truth = 1) (v : α) (htie : ∀ d ∈ pFI, d.prediction = v) :
    accumOf pFI = numPos pFI * numNeg pFI ∧
      scanLoop (countOnes pFI) v (qsort cbCompareAUCDatumPrediction pFI)
        = { tn := numNeg pFI, tp := 0, tp0 := numPos pFI, accum := 0, threshold := v } ∧
      (numPos pFI * numNeg pFI ≤ 2 ^ 53 → (CalculateAUCDouble pFI).1 = 1 / 2) := by
  have hacc := accumOf_all_tied pFI hlen hb v htie
  refine ⟨hacc, scanLoop_all_tied pFI hlen hb v htie, ?_⟩
  intro hPN
  have hsum := numPos_add_numNeg pFI hb
  have hlen' : pFI.length < 2 ^ 32 := hlen
  rw [CalculateAUCDouble_mixed pFI hlen hb h0 h1, hacc]
  exact normalizeDouble_tied _ _ (numPos_pos_of_mem h1) (numNeg_pos_of_mem h0) (by omega)
    (by omega) hPN

/-- The amended theorem of C6 at `tiedData`, where `P * N = 6`. -/
theorem C6_witness :
    tiedData.length < UINT_MOD ∧ BinaryLabels tiedData ∧
    (∃ d ∈ tiedData, d.ground_truth = 0) ∧ (∃ d ∈ tiedData, d.ground_truth = 1) ∧
    (∀ d ∈ tiedData, d.prediction = 4) ∧ numPos tiedData * numNeg tiedData ≤ 2 ^ 53 ∧
    (accumOf tiedData = numPos tiedData * numNeg tiedData ∧
      scanLoop (countOnes tiedData) 4 (qsort cbCompareAUCDatumPrediction tiedData)
        = { tn := numNeg tiedData, tp := 0, tp0 := numPos tiedData, accum := 0, threshold := 4 } ∧
      (numPos tiedData * numNeg tiedData ≤ 2 ^ 53 → (CalculateAUCDouble tiedData).1 = 1 / 2)) ∧
    (CalculateAUCDouble tiedData).1 = 1 / 2 :=
  have h := C6_all_tied_amended tiedData (by decide) (by decide) ⟨⟨0, 4⟩, by decide, rfl⟩
      ⟨⟨1, 4⟩, by decide, rfl⟩ 4 (by decide)
  ⟨by decide, by decide, ⟨⟨0, 4⟩, by decide, rfl⟩, ⟨⟨1, 4⟩, by decide, rfl⟩, by decide,
    by decide, h, h.2.2 (by decide)⟩

/-- **C6 (counterexample).** In `largeTiedData` (labels in {0,1}, mixed labels,
`189812532 < 2 ^ 32` samples, `P = 94906219`, `N = 94906313`) all predictions equal 0 and the
accumulator is `P * N > 2 ^ 53`; line 119 evaluated in IEEE doubles returns
`1/2 + 2 ^ (-53)`, not exactly 1/2. -/
theorem C6_tied_double_not_half :
    largeTiedData.length < UINT_MOD ∧ BinaryLabels largeTiedData ∧
    (∃ d ∈ largeTiedData, d.ground_truth = 0) ∧ (∃ d ∈ largeTiedData, d.ground_truth = 1) ∧
    (∀ d ∈ largeTiedData, d.prediction = 0) ∧
    accumOf largeTiedData = numPos largeTiedData * numNeg largeTiedData ∧
    2 ^ 53 < numPos largeTiedData * numNeg largeTiedData ∧
    (CalculateAUCDouble largeTiedData).1 = 1 / 2 + 1 / 2 ^ 53 ∧
    (CalculateAUCDouble largeTiedData).1 ≠ 1 / 2 := by
  have hP : numPos largeTiedData = 94906219 := twoBlockData_numPos _ _ _ _
  have hN : numNeg largeTiedData = 94906313 := twoBlockData_numNeg _ _ _ _
  have hm := twoBlockData_mixed 94906313 94906219 0 0 (by norm_num) (by norm_num)
  refine ⟨largeTiedData_length_lt, twoBlockData_binary _ _ _ _, hm.1, hm.2,
    twoBlockData_tied _ _ 0, ?_, ?_, ?_, ?_⟩
  · rw [largeTiedData_accumOf, hP, hN]
  · rw [hP, hN]; norm_num
  · rw [largeTiedData_double]; norm_num
  · rw [largeTiedData_double]; norm_num

/-- **C7.** For every dataset `xs` with labels in {0,1} (of length at least 2, and of any
shorter length as well) and every permutation `ys` of `xs`, `CalculateAUC ys` returns the same
number as `CalculateAUC xs`: the same error value or the identical score. -/
theorem C7_permutation_invariance (xs ys : List (AUCDatum α))
    (hlen : xs.length < UINT_MOD) (hb : BinaryLabels xs) (hperm : ys.Perm xs) :
    (CalculateAUC ys).1 = (CalculateAUC xs).1 := by
  have hby : BinaryLabels ys := hb.perm hperm.symm
  have hleny : ys.length < UINT_MOD := by rw [hperm.length_eq]; exact hlen
  have hacc : accumOf ys = accumOf xs := by
    rw [accumOf_eq_trapezoidSum xs hb hlen, accumOf_eq_trapezoidSum ys hby hleny,
      trapezoidSum_perm _ hperm]
  rw [CalculateAUC_cases xs hb hlen, CalculateAUC_cases ys hby hleny, numPos_perm hperm,
    numNeg_perm hperm, hacc]
  by_cases h0 : numPos xs = 0
  · rw [if_pos h0, if_pos h0]
  · rw [if_neg h0, if_neg h0]
    by_cases h1 : numNeg xs = 0
    · rw [if_pos h1, if_pos h1]
    · rw [if_neg h1, if_neg h1]

/-- The theorem of C7 at `sampleData` and `sampleDataShuffled`. -/
theorem C7_witness :
    sampleData.length < UINT_MOD ∧ BinaryLabels sampleData ∧
    sampleDataShuffled.Perm sampleData ∧
    (CalculateAUC sampleDataShuffled).1 = (CalculateAUC sampleData).1 :=
  ⟨by decide, by decide, by decide,
    C7_permutation_invariance sampleData sampleDataShuffled (by decide) (by decide)
      (by decide)⟩

/-- **C8.** The scan does not depend on how ties are ordered: two arrays that are both sorted
ascending by prediction and are permutations of each other (labels in {0,1}) have the same
number of ones and the scan of the code yields the same accumulator on both. -/
theorem C8_scan_tie_order (xs ys : List (AUCDatum α)) (hlen : xs.length < UINT_MOD)
    (hb : BinaryLabels xs) (hsx : SortedByPrediction xs) (hsy : SortedByPrediction ys)
    (hperm : xs.Perm ys) :
    countOnes xs = countOnes ys ∧ scan (countOnes xs) xs = scan (countOnes ys) ys := by
  have hby : BinaryLabels ys := hb.perm hperm
  have hleny : ys.length < UINT_MOD := by rw [← hperm.length_eq]; exact hlen
  rw [countOnes_eq xs hb hlen, countOnes_eq ys hby hleny, scan_eq_trapezoidSum xs hb hsx hlen,
    scan_eq_trapezoidSum ys hby hsy hleny, trapezoidSum_perm _ hperm]
  exact ⟨numPos_perm hperm, rfl⟩

/-- The theorem of C8 at `sortedTies` and `sortedTiesSwapped`. -/
theorem C8_witness :
    sortedTies.length < UINT_MOD ∧ BinaryLabels sortedTies ∧ SortedByPrediction sortedTies ∧
    SortedByPrediction sortedTiesSwapped ∧ sortedTies.Perm sortedTiesSwapped ∧
    (countOnes sortedTies = countOnes sortedTiesSwapped ∧
      scan (countOnes sortedTies) sortedTies
        = scan (countOnes sortedTiesSwapped) sortedTiesSwapped) :=
  ⟨by decide, by decide, by decide, by decide, by decide,
    C8_scan_tie_order sortedTies sortedTiesSwapped (by decide) (by decide) (by decide)
      (by decide) (by decide)⟩

/-- **C9 (defect of the code).** The dataset `overflowData` has fewer than `2 ^ 32` samples,
labels in {0,1} and mixed labels.  At its only threshold change `tp = tp0 = 2 ^ 31`, and the
sum `tp + tp0`, formed in 32 bits, wraps to 0 before it is widened: the step adds nothing to
`accum`.  The fixed-width scan ends with the accumulator 0, the same scan in unbounded
integers with `2 ^ 32`. -/
theorem C9_fixed_width_differs_from_unbounded :
    overflowData.length < UINT_MOD ∧ BinaryLabels overflowData ∧
    (∃ d ∈ overflowData, d.ground_truth = 0) ∧ (∃ d ∈ overflowData, d.ground_truth = 1) ∧
    scanStep ({ tn := 1, tp := 2 ^ 31, tp0 := 2 ^ 31, accum := 0, threshold := 0 } : ScanState Nat)
        ⟨1, 1⟩
      = { tn := 0, tp := 2 ^ 31 - 1, tp0 := 2 ^ 31, accum := 0, threshold := 1 } ∧
    stepWith id ({ tn := 1, tp := 2 ^ 31, tp0 := 2 ^ 31, accum := 0, threshold := 0 } : ScanState Nat)
        ⟨1, 1⟩
      = { tn := 0, tp := 2 ^ 31 - 1, tp0 := 2 ^ 31, accum := 2 ^ 32, threshold := 1 } ∧
    accumOf overflowData = 0 ∧ accumExactOf overflowData = 2 ^ 32 ∧
    accumOf overflowData ≠ accumExactOf overflowData := by
  refine ⟨overflowData_length_lt, separatedData_binary _, overflowData_mixed.1,
    overflowData_mixed.2, by decide, by decide, overflowData_accumOf,
    overflowData_accumExactOf, ?_⟩
  rw [overflowData_accumOf, overflowData_accumExactOf]
  norm_num

set_option maxRecDepth 100000 in
/-- **C10.** On the documented example dataset `(0, 0.1), (0, 3.0), (1, 0.8)`, `CalculateAUC`
returns exactly 1/2: `P = 1`, `N = 2`, and the accumulator equals 2. -/
theorem C10_documented_example :
    (CalculateAUC documentedExample).1 = 1 / 2 ∧ numPos documentedExample = 1 ∧
      numNeg documentedExample = 2 ∧ accumOf documentedExample = 2 ∧
      (CalculateAUC documentedExample).2 = [⟨0, 1 / 10⟩, ⟨1, 4 / 5⟩, ⟨0, 3⟩] := by
  have h1 : qsort cbCompareAUCDatumPrediction documentedExample
      = [⟨0, 1 / 10⟩, ⟨1, 4 / 5⟩, ⟨0, 3⟩] := by
    simp [documentedExample, qsort, cbCompareAUCDatumPrediction, List.insertionSort,
      List.orderedInsert]
    norm_num
  have h2 : countOnes documentedExample = 1 := by simp [documentedExample, countOnes, UINT_MOD]
  have h3 : accumOf documentedExample = 2 := by
    rw [accumOf, h1, h2]
    norm_num [scan, scanLoop, scanInit, scanStep, scanFlush, UINT_MOD, UINT64_MOD]
  have h4 : CalculateAUC documentedExample = (1 / 2, [⟨0, 1 / 10⟩, ⟨1, 4 / 5⟩, ⟨0, 3⟩]) := by
    have h3' : scan 1 [(⟨0, 1 / 10⟩ : AUCDatum ℚ), ⟨1, 4 / 5⟩, ⟨0, 3⟩] = 2 := by
      rw [← h3, accumOf, h1, h2]
    unfold CalculateAUC
    simp only [h1, h2, h3']
    norm_num [documentedExample, UINT_MOD]
  refine ⟨by rw [h4], by simp [documentedExample, numPos, isPos],
    by simp [documentedExample, numNeg, isNeg], h3, by rw [h4]⟩

/-- **C11.** For every dataset on which `CalculateAUC` returns a score (neither `-1` nor `-2`),
the caller's array after the call is a permutation of the array before the call, has the same
length, and is sorted ascending by prediction. -/
theorem C11_array_sorted_permutation (pFI : List (AUCDatum α))
    (hscore : (CalculateAUC pFI).1 ≠ -1 ∧ (CalculateAUC pFI).1 ≠ -2) :
    (CalculateAUC pFI).2.Perm pFI ∧ (CalculateAUC pFI).2.length = pFI.length ∧
      SortedByPrediction (CalculateAUC pFI).2 := by
  rcases CalculateAUC_exits pFI with ⟨_, h⟩ | ⟨_, h⟩ | ⟨_, h, _⟩
  · exact absurd (by rw [h]) hscore.1
  · exact absurd (by rw [h]) hscore.2
  · rw [h]
    exact ⟨qsort_perm pFI, (qsort_perm pFI).length_eq, qsort_sorted pFI⟩

/-- The theorem of C11 at `sampleData`. -/
theorem C11_witness :
    ((CalculateAUC sampleData).1 ≠ -1 ∧ (CalculateAUC sampleData).1 ≠ -2) ∧
    ((CalculateAUC sampleData).2.Perm sampleData ∧
      (CalculateAUC sampleData).2.length = sampleData.length ∧
      SortedByPrediction (CalculateAUC sampleData).2) :=
  have h : (CalculateAUC sampleData).1 ≠ -1 ∧ (CalculateAUC sampleData).1 ≠ -2 := by
    rw [sampleData_score]; norm_num
  ⟨h, C11_array_sorted_permutation sampleData h⟩

/-- **C12 (defect of the code).** The array `overflowData` is sorted ascending by prediction,
has labels in {0,1} and fewer than `2 ^ 32` samples.  Its runs are the single negative and the
`2 ^ 31` positives, so the documented sum is
`(2 ^ 31 + 2 ^ 31) * 1 + (2 ^ 31 + 0) * 0 = 2 ^ 32`; the scan of the code ends, after the
flush, with the accumulator 0. -/
theorem C12_scan_differs_from_grouped_sum :
    SortedByPrediction overflowData ∧ BinaryLabels overflowData ∧
    overflowData.length < UINT_MOD ∧
    runs overflowData = [[⟨0, 0⟩], List.replicate (2 ^ 31) ⟨1, 1⟩] ∧
    groupedTrapezoidSum (runs overflowData) = 2 ^ 32 ∧
    scan (countOnes overflowData) overflowData = 0 ∧
    scan (countOnes overflowData) overflowData ≠ groupedTrapezoidSum (runs overflowData) := by
  refine ⟨separatedData_sorted _, separatedData_binary _, overflowData_length_lt,
    overflowData_runs, overflowData_groupedTrapezoidSum, overflowData_scan, ?_⟩
  rw [overflowData_scan, overflowData_groupedTrapezoidSum]
  norm_num

/-- **C13.** For every dataset with labels in {0,1} the assertion `tp == 0` of line 116 holds:
when the loop over the sorted array ends, the counter `tp`, initialised to the number of
ones, is exactly 0. -/
theorem C13_assert_tp_zero (pFI : List (AUCDatum α)) (hb : BinaryLabels pFI)
    (hlen : pFI.length < UINT_MOD) :
    assertTpZero (countOnes pFI) (qsort cbCompareAUCDatumPrediction pFI) := by
  have hp := qsort_perm pFI
  have hones : countOnes pFI = countOnes (qsort cbCompareAUCDatumPrediction pFI) := by
    rw [countOnes_eq pFI hb hlen, countOnes_eq _ (hb.perm hp.symm) (by rw [hp.length_eq]; exact hlen),
      numPos_perm hp]
  rw [hones]
  generalize hq : qsort cbCompareAUCDatumPrediction pFI = sorted at hp ⊢
  have hbs : BinaryLabels sorted := hb.perm hp.symm
  have hls : sorted.length < UINT_MOD := by rw [hp.length_eq]; exact hlen
  cases sorted with
  | nil => rw [countOnes_eq _ hbs hls]; rfl
  | cons d rest =>
    have h := (scanLoop_take (d :: rest) hbs hls d.prediction (d :: rest).length).2.1
    rw [List.take_length, List.drop_length] at h
    exact h

/-- The theorem of C13 at `sampleData`. -/
theorem C13_witness :
    BinaryLabels sampleData ∧ sampleData.length < UINT_MOD ∧
    assertTpZero (countOnes sampleData) (qsort cbCompareAUCDatumPrediction sampleData) :=
  ⟨by decide, by decide, C13_assert_tp_zero sampleData (by decide) (by decide)⟩

/-- **C14.** The 64-bit accumulator is wide enough.  When `P + N ≤ 2 ^ 32`, `2 * P * N < 2 ^ 64`;
and for every array with labels in {0,1}, in unbounded integers the accumulator after `i`
iterations is at most the accumulator after `j ≥ i` iterations, every such partial value is
at most `2 * P * N`, and so is the final value after the flush, which is not below the last
partial value. -/
theorem C14_accumulator_wide_enough (l : List (AUCDatum α)) (hb : BinaryLabels l) (v : α)
    (i j : Nat) (hij : i ≤ j) :
    (∀ P N : Nat, P + N ≤ UINT_MOD → 2 * P * N < UINT64_MOD) ∧
    ((l.take i).foldl (stepWith id) (scanInit (numPos l) v)).accum
      ≤ ((l.take j).foldl (stepWith id) (scanInit (numPos l) v)).accum ∧
    ((l.take j).foldl (stepWith id) (scanInit (numPos l) v)).accum
      ≤ 2 * numPos l * numNeg l ∧
    (l.foldl (stepWith id) (scanInit (numPos l) v)).accum
      ≤ flushExact (l.foldl (stepWith id) (scanInit (numPos l) v)) ∧
    flushExact (l.foldl (stepWith id) (scanInit (numPos l) v)) ≤ 2 * numPos l * numNeg l := by
  refine ⟨wide_enough, ?_, ?_, ?_, ?_⟩
  · have e : l.take j = l.take i ++ (l.take j).drop i := by
      conv_lhs => rw [← List.take_append_drop i (l.take j)]
      rw [List.take_take, Nat.min_eq_left hij]
    rw [e, List.foldl_append]
    exact foldl_stepWith_accum_le id _ _
  · have h := (foldl_stepWith_id_bound (numPos l) (numNeg l) (l.take j)
      (scanInit (numPos l) v) (l.drop j) (hb.take j) (le_refl _) (le_refl _)
      (by rw [List.take_append_drop]; simp [scanInit])).2
    omega
  · unfold flushExact; omega
  · obtain ⟨h1, h2⟩ := foldl_stepWith_id_bound (numPos l) (numNeg l) l
      (scanInit (numPos l) v) [] hb (le_refl _) (le_refl _)
      (by rw [List.append_nil]; simp [scanInit])
    have h3 : (l.foldl (stepWith id) (scanInit (numPos l) v)).tp0
          * (l.foldl (stepWith id) (scanInit (numPos l) v)).tn
        ≤ numPos l * (l.foldl (stepWith id) (scanInit (numPos l) v)).tn :=
      Nat.mul_le_mul_right _ h1
    unfold flushExact
    have hnil : numNeg ([] : List (AUCDatum α)) = 0 := rfl
    rw [hnil, Nat.add_zero] at h2
    generalize (l.foldl (stepWith id) (scanInit (numPos l) v)).tp0
          * (l.foldl (stepWith id) (scanInit (numPos l) v)).tn = x at h3 ⊢
    generalize (l.foldl (stepWith id) (scanInit (numPos l) v)).tn = t at h2 h3 ⊢
    have e : 2 * numPos l * t = numPos l * t + numPos l * t := by ring
    omega

/-- The theorem of C14 at `sortedTies`, after 1 and after 3 iterations. -/
theorem C14_witness :
    BinaryLabels sortedTies ∧ 1 ≤ 3 ∧
    ((∀ P N : Nat, P + N ≤ UINT_MOD → 2 * P * N < UINT64_MOD) ∧
    ((sortedTies.take 1).foldl (stepWith id) (scanInit (numPos sortedTies) 1)).accum
      ≤ ((sortedTies.take 3).foldl (stepWith id) (scanInit (numPos sortedTies) 1)).accum ∧
    ((sortedTies.take 3).foldl (stepWith id) (scanInit (numPos sortedTies) 1)).accum
      ≤ 2 * numPos sortedTies * numNeg sortedTies ∧
    (sortedTies.foldl (stepWith id) (scanInit (numPos sortedTies) 1)).accum
      ≤ flushExact (sortedTies.foldl (stepWith id) (scanInit (numPos sortedTies) 1)) ∧
    flushExact (sortedTies.foldl (stepWith id) (scanInit (numPos sortedTies) 1))
      ≤ 2 * numPos sortedTies * numNeg sortedTies) :=
  ⟨by decide, by decide, C14_accumulator_wide_enough sortedTies (by decide) 1 1 3 (by decide)⟩

/-- **C15.** For every dataset on which `CalculateAUC` returns `-1` (all negatives) or `-2`
(all positives), the caller's array after the call is the array before the call, unchanged:
both returns precede the sort. -/
theorem C15_errors_leave_array (pFI : List (AUCDatum α))
    (herr : (CalculateAUC pFI).1 = -1 ∨ (CalculateAUC pFI).1 = -2) :
    (CalculateAUC pFI).2 = pFI := by
  rcases CalculateAUC_exits pFI with ⟨_, h⟩ | ⟨_, h⟩ | ⟨_, _, h⟩
  · rw [h]
  · rw [h]
  · rcases herr with e | e <;> rw [e] at h <;> norm_num at h

/-- The theorem of C15 at `allNegativeData`. -/
theorem C15_witness :
    ((CalculateAUC allNegativeData).1 = -1 ∨ (CalculateAUC allNegativeData).1 = -2) ∧
    (CalculateAUC allNegativeData).2 = allNegativeData :=
  have h : (CalculateAUC allNegativeData).1 = -1 ∨ (CalculateAUC allNegativeData).1 = -2 :=
    Or.inl (by rw [allNegativeData_result])
  ⟨h, C15_errors_leave_array allNegativeData h⟩

/-- **C16.** For labels in {0,1}: when `CalculateAUC` gets past the degeneracy checks the
dataset has `P ≥ 1` and `N ≥ 1`, hence length at least 2, a sorted array with a first element,
and non-zero divisors `ones` and `_count - ones` (so `P * N ≠ 0`); and every dataset of length
0 or 1 stops at a degeneracy check and returns `-1` or `-2`, never a score. -/
theorem C16_checks_guard (pFI : List (AUCDatum α)) (hb : BinaryLabels pFI)
    (hlen : pFI.length < UINT_MOD) :
    (PassesChecks pFI →
      1 ≤ numPos pFI ∧ 1 ≤ numNeg pFI ∧ 2 ≤ pFI.length ∧ numPos pFI * numNeg pFI ≠ 0 ∧
      countOnes pFI = numPos pFI ∧
      (pFI.length + UINT_MOD - countOnes pFI) % UINT_MOD = numNeg pFI ∧
      qsort cbCompareAUCDatumPrediction pFI ≠ []) ∧
    (pFI.length ≤ 1 →
      ¬ PassesChecks pFI ∧ ((CalculateAUC pFI).1 = -1 ∨ (CalculateAUC pFI).1 = -2)) := by
  have hsum := numPos_add_numNeg pFI hb
  have hones := countOnes_eq pFI hb hlen
  have hiff := passesChecks_iff pFI hb hlen
  constructor
  · intro hp
    obtain ⟨hP, hN⟩ := hiff.mp hp
    refine ⟨hP, hN, by omega, Nat.mul_ne_zero (by omega) (by omega), hones, ?_, ?_⟩
    · rw [hones, show pFI.length + UINT_MOD - numPos pFI = numNeg pFI + UINT_MOD by omega,
        Nat.add_mod_right, Nat.mod_eq_of_lt (by omega)]
    · intro hnil
      have := (qsort_perm pFI).length_eq
      rw [hnil] at this
      simp at this
      omega
  · intro hshort
    have hnp : ¬ PassesChecks pFI := by
      rw [hiff]
      omega
    refine ⟨hnp, ?_⟩
    rcases CalculateAUC_exits pFI with ⟨_, h⟩ | ⟨_, h⟩ | ⟨hp, _⟩
    · left; rw [h]
    · right; rw [h]
    · exact absurd hp hnp

/-- The theorem of C16 at `sampleData`, which gets past the checks, and at `singletonData`,
which does not. -/
theorem C16_witness :
    (BinaryLabels sampleData ∧ sampleData.length < UINT_MOD ∧ PassesChecks sampleData ∧
      ((PassesChecks sampleData →
        1 ≤ numPos sampleData ∧ 1 ≤ numNeg sampleData ∧ 2 ≤ sampleData.length ∧
        numPos sampleData * numNeg sampleData ≠ 0 ∧
        countOnes sampleData = numPos sampleData ∧
        (sampleData.length + UINT_MOD - countOnes sampleData) % UINT_MOD = numNeg sampleData ∧
        qsort cbCompareAUCDatumPrediction sampleData ≠ []) ∧
      (sampleData.length ≤ 1 →
        ¬ PassesChecks sampleData ∧
          ((CalculateAUC sampleData).1 = -1 ∨ (CalculateAUC sampleData).1 = -2)))) ∧
    (BinaryLabels singletonData ∧ singletonData.length < UINT_MOD ∧
      singletonData.length ≤ 1 ∧
      ((PassesChecks singletonData →
        1 ≤ numPos singletonData ∧ 1 ≤ numNeg singletonData ∧ 2 ≤ singletonData.length ∧
        numPos singletonData * numNeg singletonData ≠ 0 ∧
        countOnes singletonData = numPos singletonData ∧
        (singletonData.length + UINT_MOD - countOnes singletonData) % UINT_MOD
          = numNeg singletonData ∧
        qsort cbCompareAUCDatumPrediction singletonData ≠ []) ∧
      (singletonData.length ≤ 1 →
        ¬ PassesChecks singletonData ∧
          ((CalculateAUC singletonData).1 = -1 ∨ (CalculateAUC singletonData).1 = -2)))) :=
  ⟨⟨by decide, by decide, by decide, C16_checks_guard sampleData (by decide) (by decide)⟩,
    ⟨by decide, by decide, by decide, C16_checks_guard singletonData (by decide) (by decide)⟩⟩

/-- **C17 (defect of the code).** On `overflowData` (labels in {0,1}, mixed labels, fewer than
`2 ^ 32` samples, `2 * P * N = 2 ^ 32`) the code ends with the accumulator 0 and returns 0; on
the dataset with every label `g` replaced by `1 - g` it also ends with the accumulator 0 and
returns 0, not `2 * P * N - accum = 2 ^ 32` and `1 - score = 1`. -/
theorem C17_flip_is_not_complement :
    overflowData.length < UINT_MOD ∧ BinaryLabels overflowData ∧
    (∃ d ∈ overflowData, d.ground_truth = 0) ∧ (∃ d ∈ overflowData, d.ground_truth = 1) ∧
    2 * numPos overflowData * numNeg overflowData = 2 ^ 32 ∧
    accumOf overflowData = 0 ∧ accumOf (flipLabels overflowData) = 0 ∧
    accumOf (flipLabels overflowData)
      ≠ 2 * numPos overflowData * numNeg overflowData - accumOf overflowData ∧
    (CalculateAUC overflowData).1 = 0 ∧ (CalculateAUC (flipLabels overflowData)).1 = 0 ∧
    (CalculateAUC (flipLabels overflowData)).1 ≠ 1 - (CalculateAUC overflowData).1 := by
  have hP : numPos overflowData = 2 ^ 31 := separatedData_numPos _
  have hN : numNeg overflowData = 1 := separatedData_numNeg _
  refine ⟨overflowData_length_lt, separatedData_binary _, overflowData_mixed.1,
    overflowData_mixed.2, ?_, overflowData_accumOf, overflowData_flip_accumOf, ?_,
    overflowData_score, overflowData_flip_score, ?_⟩
  · rw [hP, hN]; norm_num
  · rw [overflowData_flip_accumOf, overflowData_accumOf, hP, hN]; norm_num
  · rw [overflowData_flip_score, overflowData_score]; norm_num

/-- **C18.** The result depends only on the ranking of the predictions: for every dataset with
labels in {0,1} and every strictly increasing function `f` on predictions, applying `f` to
every prediction leaves the accumulator of the code and the returned number unchanged. -/
theorem C18_monotone_transform {β : Type} [LinearOrder β] (f : α → β) (hf : StrictMono f)
    (pFI : List (AUCDatum α)) (hb : BinaryLabels pFI) (hlen : pFI.length < UINT_MOD) :
    accumOf (mapPrediction f pFI) = accumOf pFI ∧
      (CalculateAUC (mapPrediction f pFI)).1 = (CalculateAUC pFI).1 := by
  have hbm := mapPrediction_binary f pFI hb
  have hlm : (mapPrediction f pFI).length < UINT_MOD := by
    rw [mapPrediction_length]; exact hlen
  have hacc : accumOf (mapPrediction f pFI) = accumOf pFI := by
    rw [accumOf_eq_trapezoidSum _ hbm hlm, accumOf_eq_trapezoidSum _ hb hlen,
      mapPrediction_trapezoidSum _ f hf]
  refine ⟨hacc, ?_⟩
  rw [CalculateAUC_cases _ hbm hlm, CalculateAUC_cases _ hb hlen, mapPrediction_numPos,
    mapPrediction_numNeg, hacc]
  by_cases h0 : numPos pFI = 0
  · rw [if_pos h0, if_pos h0]
  · rw [if_neg h0, if_neg h0]
    by_cases h1 : numNeg pFI = 0
    · rw [if_pos h1, if_pos h1]
    · rw [if_neg h1, if_neg h1]

/-- The theorem of C18 at `sampleData` and the map `x ↦ 2 * x + 1`. -/
theorem C18_witness :
    StrictMono doublePlusOne ∧ BinaryLabels sampleData ∧ sampleData.length < UINT_MOD ∧
    (accumOf (mapPrediction doublePlusOne sampleData) = accumOf sampleData ∧
      (CalculateAUC (mapPrediction doublePlusOne sampleData)).1 = (CalculateAUC sampleData).1) :=
  ⟨doublePlusOne_strictMono, by decide, by decide,
    C18_monotone_transform doublePlusOne doublePlusOne_strictMono sampleData (by decide)
      (by decide)⟩

/-- **C19.** Scan loop invariant of the code.  For every array with labels in {0,1} and every
`i` from 0 to its length, after the first `i` iterations `tp` is the number of positives at
positions `≥ i`, `tp ≤ tp0`, and `tn` is at most the number of negatives among the first `i`
samples; so for the sample `d` at position `i` the decrement `tp -= ground_truth` does not
wrap (`ground_truth ≤ tp`), `1 - ground_truth` is 0 or 1 as an unsigned value, and
`tn += 1 - ground_truth` does not wrap. -/
theorem C19_scan_loop_invariant (l : List (AUCDatum α)) (hb : BinaryLabels l)
    (hlen : l.length < UINT_MOD) (v : α) (i : Nat) :
    ((l.take i).foldl scanStep (scanInit (countOnes l) v)).tp = numPos (l.drop i) ∧
    ((l.take i).foldl scanStep (scanInit (countOnes l) v)).tp
      ≤ ((l.take i).foldl scanStep (scanInit (countOnes l) v)).tp0 ∧
    ((l.take i).foldl scanStep (scanInit (countOnes l) v)).tn ≤ numNeg (l.take i) ∧
    (∀ d, l[i]? = some d →
      d.ground_truth ≤ ((l.take i).foldl scanStep (scanInit (countOnes l) v)).tp ∧
      (((l.take i).foldl scanStep (scanInit (countOnes l) v)).tp + UINT_MOD
          - d.ground_truth % UINT_MOD) % UINT_MOD
        = ((l.take i).foldl scanStep (scanInit (countOnes l) v)).tp - d.ground_truth ∧
      (1 + UINT_MOD - d.ground_truth % UINT_MOD) % UINT_MOD = 1 - d.ground_truth ∧
      ((l.take i).foldl scanStep (scanInit (countOnes l) v)).tn + (1 - d.ground_truth)
        < UINT_MOD) := by
  obtain ⟨_, h1, h2, h3⟩ := scanLoop_take l hb hlen v i
  refine ⟨h1, h2, h3, ?_⟩
  intro d hd
  obtain ⟨hlt, hget⟩ := List.getElem?_eq_some.mp hd
  have hdrop : l.drop i = d :: l.drop (i + 1) := by
    rw [← hget]; exact List.drop_eq_getElem_cons hlt
  have hg : d.ground_truth = 0 ∨ d.ground_truth = 1 :=
    hb d (by rw [← hget]; exact List.getElem_mem _)
  have hle : d.ground_truth ≤ ((l.take i).foldl scanStep (scanInit (countOnes l) v)).tp := by
    rw [h1, hdrop, numPos_cons]
    rcases hg with g | g
    · simp [g]
    · simp [g]
  have htp : ((l.take i).foldl scanStep (scanInit (countOnes l) v)).tp < UINT_MOD := by
    have := numPos_le_length (l.drop i)
    rw [List.length_drop] at this
    omega
  have htn : ((l.take i).foldl scanStep (scanInit (countOnes l) v)).tn + 1 < UINT_MOD := by
    have := List.countP_le_length (isNeg (α := α)) (l := l.take i)
    rw [List.length_take] at this
    unfold numNeg at h3
    omega
  refine ⟨hle, wrap_tp _ _ htp hle hg, ?_, by omega⟩
  have := wrap_tn 0 d.ground_truth (by norm_num [UINT_MOD]) hg
  rw [Nat.zero_add, Nat.zero_add, Nat.mod_mod] at this
  exact this

/-- The theorem of C19 at `sortedTies` after 2 iterations. -/
theorem C19_witness :
    BinaryLabels sortedTies ∧ sortedTies.length < UINT_MOD ∧
    (((sortedTies.take 2).foldl scanStep (scanInit (countOnes sortedTies) 1)).tp
      = numPos (sortedTies.drop 2) ∧
    ((sortedTies.take 2).foldl scanStep (scanInit (countOnes sortedTies) 1)).tp
      ≤ ((sortedTies.take 2).foldl scanStep (scanInit (countOnes sortedTies) 1)).tp0 ∧
    ((sortedTies.take 2).foldl scanStep (scanInit (countOnes sortedTies) 1)).tn
      ≤ numNeg (sortedTies.take 2) ∧
    (∀ d, sortedTies[2]? = some d →
      d.ground_truth ≤ ((sortedTies.take 2).foldl scanStep (scanInit (countOnes sortedTies) 1)).tp ∧
      (((sortedTies.take 2).foldl scanStep (scanInit (countOnes sortedTies) 1)).tp + UINT_MOD
          - d.ground_truth % UINT_MOD) % UINT_MOD
        = ((sortedTies.take 2).foldl scanStep (scanInit (countOnes sortedTies) 1)).tp
          - d.ground_truth ∧
      (1 + UINT_MOD - d.ground_truth % UINT_MOD) % UINT_MOD = 1 - d.ground_truth ∧
      ((sortedTies.take 2).foldl scanStep (scanInit (countOnes sortedTies) 1)).tn
        + (1 - d.ground_truth) < UINT_MOD)) :=
  ⟨by decide, by decide, C19_scan_loop_invariant sortedTies (by decide) (by decide) 1 2⟩

end Claims

end CalcAUC
